import Mathlib

/-!
Verification of the retrieval-augmented answering core of the `lena` repository.

The Python sources embedded here (shallowly) are:
  - `backend/app/rag/retrieve.py` (`retrieve`, `_apply_keyword_bias`,
    `_fallback_local_chunks`, `RetrievedChunk`),
  - `backend/app/rag/qdrant_utils.py` (`_InMemoryQdrantClient.search` / `delete` /
    `upsert`, `ensure_collection`),
  - `backend/app/rag/ingest.py` (`run_ingest`, `chunk_text`, `chunk_document`,
    `deterministic_chunk_id`, `build_metadata`, `delete_document_chunks`),
  - `backend/app/api/routes/chat.py` (`_build_citations`, `_normalize`,
    `_compute_confidence`).

Conventions of the embedding:
  - Python floats are modelled as rationals (`ℚ`); `round(x, 2)` is modelled as
    round-half-to-even at two decimals, which is CPython rounding on exact values.
  - Python strings are modelled as Lean `String`; `str.lower()`, `str.split()`,
    `str.title()`, `Path.stem` and `re.findall` are modelled character-wise below.
  - The cosine similarity of the in-memory client involves square roots of floats,
    so the similarity function is an explicit parameter `sim`; every theorem holds
    for an arbitrary `sim`.
  - `uuid5(NAMESPACE_DNS, f"{doc_id}:{chunk_idx}")` is modelled as the pair
    `(doc_id, chunk_idx)`: deterministic in its inputs and injective (which the
    real uuid5 is, absent SHA-1 collisions).  `uuid4().hex` (a fresh random id)
    is modelled as an explicit parameter.
  - The filesystem is modelled as an association list of (relative path, content)
    pairs, listed in the sorted order that `sorted(root.rglob("*.md"))` produces;
    files are assumed readable (an OSError merely skips a file in the source).
-/

namespace Lena

/-! ## Python string primitives -/

/-- Python `str.lower()`, character-wise. -/
def pyLower (s : String) : String := String.mk (s.toList.map Char.toLower)

/-- Check that `needle` occurs as a contiguous substring of `hay`
(the Python `needle in hay` test on strings), on character lists. -/
def subList (needle hay : List Char) : Bool :=
  match hay with
  | [] => needle.isEmpty
  | _ :: t => needle.isPrefixOf hay || subList needle t

/-- Python `needle in hay` on strings. -/
def strHas (needle hay : String) : Bool := subList needle.toList hay.toList

/-- Helper for `pySplit`: accumulate the current word (in reverse). -/
def pySplitAux : List Char → List Char → List String
  | [], cur => if cur.isEmpty then [] else [String.mk cur.reverse]
  | c :: cs, cur =>
    if c.isWhitespace then
      if cur.isEmpty then pySplitAux cs [] else String.mk cur.reverse :: pySplitAux cs []
    else pySplitAux cs (c :: cur)

/-- Python `str.split()` with no argument: split on runs of whitespace,
discarding empty pieces. -/
def pySplit (s : String) : List String := pySplitAux s.toList []

/-- A character matched by the regex class `\w` (ASCII reading): letters,
digits, and the underscore. -/
def isWordChar (c : Char) : Bool := c.isAlphanum || c == '_'

/-- Helper for `findallWords`: collect maximal runs of word characters. -/
def findallWordsAux : List Char → List Char → List String
  | [], cur => if cur.isEmpty then [] else [String.mk cur.reverse]
  | c :: cs, cur =>
    if isWordChar c then findallWordsAux cs (c :: cur)
    else if cur.isEmpty then findallWordsAux cs [] else String.mk cur.reverse :: findallWordsAux cs []

/-- Python `re.findall(r"\w+", s)`: the maximal runs of word characters. -/
def findallWords (s : String) : List String := findallWordsAux s.toList []

/-- Helper for `findallEscW`, as a left-to-right scan.  The second argument is
the scanner state: `none` outside a candidate match, `some run` directly after
a backslash with `run` the literal `w` characters collected so far (reversed). -/
def findallEscWAux : List Char → Option (List Char) → List String
  | [], none => []
  | [], some run => if run.isEmpty then [] else [String.mk ('\\' :: run.reverse)]
  | c :: cs, none =>
    if c == '\\' then findallEscWAux cs (some []) else findallEscWAux cs none
  | c :: cs, some run =>
    if c == 'w' then findallEscWAux cs (some (c :: run))
    else if run.isEmpty then
      if c == '\\' then findallEscWAux cs (some []) else findallEscWAux cs none
    else
      String.mk ('\\' :: run.reverse) ::
        (if c == '\\' then findallEscWAux cs (some []) else findallEscWAux cs none)

/-- Python `re.findall(r"\\w+", s)`: the pattern in `_fallback_local_chunks` has an
escaped backslash, so it matches a literal backslash followed by one or more
literal `w` characters -- not ordinary words. -/
def findallEscW (s : String) : List String := findallEscWAux s.toList none

/-- Python `str.title()`: uppercase every cased character that follows a
non-alphabetic character, lowercase the rest. -/
def pyTitleAux : List Char → Bool → List Char
  | [], _ => []
  | c :: cs, prevAlpha =>
    (if prevAlpha then c.toLower else c.toUpper) :: pyTitleAux cs c.isAlpha

/-- Python `str.title()`. -/
def pyTitle (s : String) : String := String.mk (pyTitleAux s.toList false)

/-- The final path segment (`PurePath.name`): everything after the last slash. -/
def pathName (p : String) : String :=
  String.mk ((p.toList.reverse.takeWhile (fun c => !(c == '/'))).reverse)

/-- The first path segment (`PurePath.parts[0]` of a relative path). -/
def firstSegment (p : String) : String :=
  String.mk (p.toList.takeWhile (fun c => !(c == '/')))

/-- `Path.stem`: the final path component without its last extension. -/
def pathStem (p : String) : String :=
  let n := (pathName p).toList
  if n.any (fun c => c == '.') then
    String.mk ((n.reverse.dropWhile (fun c => !(c == '.'))).drop 1).reverse
  else String.mk n

/-- Python truthiness of an optional string (`if course_id:`): `None` and the
empty string are falsy. -/
def optTruthy : Option String → Bool
  | none => false
  | some s => !(s == "")

/-! ## Data model

`RetrievedChunk` (retrieve.py) carries `id`, `text`, `score` and a metadata
dict.  The metadata keys that ever occur are those written by
`build_metadata` in ingest.py plus the hand-built dicts of the fabricated
chunks in retrieve.py; they are modelled as one record of optional fields,
`none` meaning the key is absent. -/

/-- The metadata dict of a chunk (every key optional; `none` = absent). -/
structure ChunkMeta where
  doc_id : Option String := none
  version_id : Option String := none
  collection : Option String := none
  title : Option String := none
  «section» : Option String := none
  source_path : Option String := none
  course_id : Option String := none
  crawl_ts : Option String := none
deriving DecidableEq, Repr

/-- `RetrievedChunk` of retrieve.py: a retrieved chunk with metadata
(the metadata dict is the payload minus the `text` key). -/
structure RetrievedChunk where
  id : String
  text : String
  score : ℚ
  meta : ChunkMeta
deriving DecidableEq, Repr

instance : Inhabited RetrievedChunk := ⟨⟨"", "", 0, {}⟩⟩

/-- `Citation` of schemas/chat.py. -/
structure Citation where
  title : String
  «section» : Option String := none
  source_path : String
deriving DecidableEq, Repr

/-! ## Confidence scorer (chat.py `_normalize`, `_compute_confidence`) -/

/-- Round-half-to-even to an integer (CPython `round` on exact values). -/
def roundHalfEven (q : ℚ) : ℤ :=
  if q - ⌊q⌋ < 1/2 then ⌊q⌋
  else if (1 : ℚ)/2 < q - ⌊q⌋ then ⌊q⌋ + 1
  else if 2 ∣ ⌊q⌋ then ⌊q⌋ else ⌊q⌋ + 1

/-- Python `round(q, 2)`. -/
def pyRound2 (q : ℚ) : ℚ := (roundHalfEven (q * 100) : ℚ) / 100

/-- `_normalize` of chat.py: normalize a value to the 0-1 range. -/
def _normalize (value lower upper : ℚ) : ℚ :=
  if upper - lower = 0 then 0
  else max 0 (min 1 ((value - lower) / (upper - lower)))

/-- Stable descending sort by `≥` (Python `sorted(scores, reverse=True)`). -/
def sortDescQ (l : List ℚ) : List ℚ := l.insertionSort (fun a b => a ≥ b)

/-- Minimum of a list of scores (Python `min(scores)`; the list is nonempty at
every call site, the default is irrelevant). -/
def listMinQ : List ℚ → ℚ
  | [] => 0
  | x :: t => t.foldl min x

/-- `_compute_confidence` of chat.py.  `settings.retrieval_top_k` is the
parameter `topK`.  The guard `chunk.score is not None` of the source never
fires because pydantic declares `score: float` (non-optional), so the list of
scores is the list of all chunk scores. -/
def _compute_confidence (topK : Nat) (chunks : List RetrievedChunk) : ℚ :=
  if chunks.isEmpty then 0
  else
    let scores := chunks.map (·.score)
    match sortDescQ scores with
    | [] => 0
    | maxScore :: restSorted =>
      let secondScore := restSorted.headD maxScore
      let spread := maxScore - secondScore
      let minScore := listMinQ scores
      let scoreComponent := _normalize maxScore 0.3 1
      let spreadComponent := _normalize spread 0 0.4
      let consistencyComponent := _normalize (maxScore - minScore) 0 0.5
      let coverageComponent := _normalize ((scores.length : ℚ) / (topK : ℚ)) 0.3 1
      let combined := 0.5 * scoreComponent + 0.2 * spreadComponent
        + 0.2 * consistencyComponent + 0.1 * coverageComponent
      pyRound2 (max 0 (min 1 combined))

/-! ## Citations (chat.py `_build_citations`) -/

/-- Loop of `_build_citations`: `idx` is the 1-based `enumerate` counter and
`seen` the set of source paths already cited. -/
def buildCitationsAux : List RetrievedChunk → Nat → List String → List Citation
  | [], _, _ => []
  | c :: rest, idx, seen =>
    match c.meta.source_path with
    | none => buildCitationsAux rest (idx + 1) seen
    | some sp =>
      if sp = "" ∨ sp ∈ seen then buildCitationsAux rest (idx + 1) seen
      else
        { title := c.meta.title.getD ("Source " ++ toString idx),
          «section» := c.meta.«section»,
          source_path := sp } :: buildCitationsAux rest (idx + 1) (sp :: seen)

/-- `_build_citations` of chat.py: extract unique citations from retrieved
chunks, deduplicated by source path. -/
def _build_citations (chunks : List RetrievedChunk) : List Citation :=
  buildCitationsAux chunks 1 []

/-- The usable source path of a chunk: present and non-empty
(the `if not source_path` skip of the source). -/
def citePath (c : RetrievedChunk) : Option String :=
  match c.meta.source_path with
  | none => none
  | some sp => if sp = "" then none else some sp

/-- Specification-side restatement of the citation-dedup sentence of the spec:
walk the chunks keeping the list of chunks already passed (`past`); emit a
citation exactly for those chunks whose valid source path occurs in no earlier
chunk, in order, carrying the title and section of that first-seen chunk. -/
def specCitations : List RetrievedChunk → List RetrievedChunk → List Citation
  | _, [] => []
  | past, c :: rest =>
    match citePath c with
    | none => specCitations (past ++ [c]) rest
    | some sp =>
      if past.any (fun c' => citePath c' == some sp) then specCitations (past ++ [c]) rest
      else
        { title := c.meta.title.getD ("Source " ++ toString (past.length + 1)),
          «section» := c.meta.«section»,
          source_path := sp } :: specCitations (past ++ [c]) rest

/-! ## Keyword-bias re-rank (retrieve.py `_apply_keyword_bias`) -/

/-- A point stored in the vector index: `qmodels.PointStruct` with the payload
split into its `text` key and the remaining metadata. -/
structure ChunkIdT where
  doc_id : String
  idx : Nat
deriving DecidableEq, Repr

/-- Payload of an indexed point: the `text` key plus the metadata keys. -/
structure Payload where
  text : String
  meta : ChunkMeta
deriving DecidableEq, Repr

/-- `qmodels.ScoredPoint`: a search hit. -/
structure ScoredPoint where
  id : ChunkIdT
  payload : Payload
  score : ℚ
deriving DecidableEq, Repr

/-- The keyword set of `_apply_keyword_bias`: case-folded words of the query of
length greater than 2 (a Python set; only emptiness and membership tests are
ever applied to it, so the list order and multiplicity are immaterial). -/
def queryKeywords (query : String) : List String :=
  ((findallWords query).filter (fun w => 2 < w.length)).map pyLower

/-- The haystack test of `_apply_keyword_bias`: does the title, section or
source path of the hit contain one of the keywords? -/
def keywordMatch (query : String) (item : ScoredPoint) : Bool :=
  let haystack := String.intercalate " "
    [pyLower (item.payload.meta.title.getD ""),
     pyLower (item.payload.meta.«section».getD ""),
     pyLower (item.payload.meta.source_path.getD "")]
  (queryKeywords query).any (fun w => strHas w haystack)

/-- `_apply_keyword_bias` of retrieve.py: promote results whose title, section
or source path contains a query keyword, keeping each bucket in order. -/
def _apply_keyword_bias (results : List ScoredPoint) (query : String) : List ScoredPoint :=
  if (queryKeywords query).isEmpty then results
  else
    let part := results.partition (keywordMatch query)
    part.1 ++ part.2

/-! ## Chunking (ingest.py `chunk_text`)

The claims use the module-level defaults `MAX_TOKENS = 700`, `OVERLAP = 120`
with which every caller invokes `chunk_text`. -/

/-- `MAX_TOKENS` of ingest.py. -/
def MAX_TOKENS : Nat := 700

/-- `OVERLAP` of ingest.py. -/
def OVERLAP : Nat := 120

/-- The while loop of `chunk_text`: emit `" ".join(words[start:end])` with
`end = min(start + MAX_TOKENS, len(words))`, stop when `end` reaches the end,
otherwise continue from `max(0, end - OVERLAP)` (truncated subtraction). -/
def chunkTextAux (words : List String) (start : Nat) : List String :=
  if _h : start < words.length then
    String.intercalate " "
        ((words.drop start).take (min (start + MAX_TOKENS) words.length - start)) ::
      (if min (start + MAX_TOKENS) words.length = words.length then []
       else chunkTextAux words (min (start + MAX_TOKENS) words.length - OVERLAP))
  else []
termination_by words.length - start
decreasing_by
  simp only [MAX_TOKENS, OVERLAP] at *
  omega

/-- `chunk_text` of ingest.py: split text into overlapping word-window chunks. -/
def chunk_text (text : String) : List String := chunkTextAux (pySplit text) 0

/-- The (start, end) word-index windows of the chunks that `chunkTextAux`
emits, for a word list of length `n` (used to state coverage and overlap). -/
def chunkSpans (n start : Nat) : List (Nat × Nat) :=
  if _h : start < n then
    (start, min (start + MAX_TOKENS) n) ::
      (if min (start + MAX_TOKENS) n = n then []
       else chunkSpans n (min (start + MAX_TOKENS) n - OVERLAP))
  else []
termination_by n - start
decreasing_by
  simp only [MAX_TOKENS, OVERLAP] at *
  omega

/-! ## Vector index (qdrant_utils.py `_InMemoryQdrantClient`)

Only one collection (`settings.qdrant_collection`) is ever touched, so the
state is that single collection: its point list and its vector size. -/

/-- A point of the index (`qmodels.PointStruct`). -/
structure PointStruct where
  id : ChunkIdT
  vector : List ℚ
  payload : Payload
deriving DecidableEq, Repr

/-- The single collection of the in-memory client. -/
structure Collection where
  points : List PointStruct
  size : Nat
deriving DecidableEq, Repr

/-- `ensure_collection` of qdrant_utils.py: create the collection when it is
missing, recreate it (dropping every point) when its dimension differs from
the embedding dimension. -/
def ensure_collection (dim : Nat) : Option Collection → Collection
  | none => { points := [], size := dim }
  | some c => if c.size = dim then c else { points := [], size := dim }

/-- `_InMemoryQdrantClient.search`: filter by the (optional) `course_id`
condition, score every remaining point with the similarity function `sim`,
sort by descending score (stably) and keep the first `limit` hits.  The real
scorer `_cosine` divides by square roots of floats, so `sim` is a parameter;
the theorems below hold for every `sim`. -/
def searchIndex (sim : List ℚ → List ℚ → ℚ) (points : List PointStruct)
    (queryVector : List ℚ) (limit : Nat) (flt : Option String) : List ScoredPoint :=
  let filtered := points.filter (fun p =>
    match flt with
    | none => true
    | some cid => p.payload.meta.course_id == some cid)
  let results := filtered.map (fun p => ScoredPoint.mk p.id p.payload (sim queryVector p.vector))
  (results.insertionSort (fun a b => a.score ≥ b.score)).take limit

/-- `_InMemoryQdrantClient.upsert`: extend the point list. -/
def upsertPoints (c : Collection) (new : List PointStruct) : Collection :=
  { c with points := c.points ++ new }

/-- `delete_document_chunks` of ingest.py composed with
`_InMemoryQdrantClient.delete`: drop every point whose `doc_id` payload key
matches. -/
def delete_document_chunks (c : Collection) (docId : String) : Collection :=
  { c with points := c.points.filter (fun p => !(p.payload.meta.doc_id == some docId)) }

/-! ## Ingestion (ingest.py `run_ingest`)

Parsing a file and embedding a batch of texts are the two fallible external
steps; both are modelled with `Except`: each corpus entry is the outcome of
its parser (`iter_documents` raises out of the generator when a parser
fails), and `embed` is the per-text embedding (a batch fails when any of its
texts fails, modelling one failing `embedder.encode(texts)` call).
`crawl_ts` (wall-clock time at metadata construction) is a parameter. -/

/-- `Section` of ingest.py. -/
structure Section where
  title : String
  content : String
deriving DecidableEq, Repr

/-- `ParsedDocument` of ingest.py. -/
structure ParsedDocument where
  doc_id : String
  version_id : String
  collection : String
  title : String
  source_path : String
  course_id : String
  sections : List Section
deriving DecidableEq, Repr

/-- `deterministic_chunk_id` of ingest.py:
`uuid5(NAMESPACE_DNS, f"{doc_id}:{chunk_idx}")`, modelled as the pair of its
inputs (deterministic, and injective as uuid5 is absent SHA-1 collisions). -/
def deterministic_chunk_id (docId : String) (chunkIdx : Nat) : ChunkIdT :=
  ⟨docId, chunkIdx⟩

/-- `build_metadata` of ingest.py. -/
def build_metadata (document : ParsedDocument) (sectionTitle : String)
    (crawlTs : String) : ChunkMeta :=
  { doc_id := some document.doc_id,
    version_id := some document.version_id,
    collection := some document.collection,
    title := some document.title,
    «section» := some sectionTitle,
    source_path := some document.source_path,
    course_id := some document.course_id,
    crawl_ts := some crawlTs }

/-- `chunk_document` of ingest.py: `(chunk_index, chunk text, section title)`
triples, with one running index across all sections. -/
def chunk_document (document : ParsedDocument) : List (Nat × String × String) :=
  ((document.sections.map (fun s => (chunk_text s.content).map (fun t => (t, s.title)))).flatten).enum

/-- `IngestCounts` of ingest.py. -/
structure IngestCounts where
  docs : Nat
  chunks : Nat
deriving DecidableEq, Repr

/-- `IngestResult` of ingest.py. -/
structure IngestResult where
  ok : Bool
  counts : IngestCounts
deriving DecidableEq, Repr

/-- The exception that aborts a `run_ingest` call. -/
inductive IngestError
  | parseFailure
  | embedFailure
deriving DecidableEq, Repr

/-- The points built for one document from its chunk payloads and the batch of
vectors (`zip(chunk_payloads, vectors)` in the source). -/
def docPoints (crawlTs : String) (document : ParsedDocument)
    (vectors : List (List ℚ)) : List PointStruct :=
  ((chunk_document document).zip vectors).map (fun pv =>
    { id := deterministic_chunk_id document.doc_id pv.1.1,
      vector := pv.2,
      payload := { text := pv.1.2.1, meta := build_metadata document pv.1.2.2 crawlTs } })

/-- The document loop of `run_ingest`.  A parse failure surfaces when the
generator yields the document; an embedding failure aborts before any delete
or upsert for that document.  Writes already performed for earlier documents
stay in the collection (the store is external state). -/
def ingestLoop (embed : String → Except Unit (List ℚ)) (crawlTs : String) :
    List (Except Unit ParsedDocument) → Collection → Nat → Nat →
    Except IngestError IngestResult × Collection
  | [], coll, docsProcessed, chunkCount =>
    (.ok { ok := true, counts := { docs := docsProcessed, chunks := chunkCount } }, coll)
  | .error _ :: _, coll, _, _ => (.error .parseFailure, coll)
  | .ok document :: rest, coll, docsProcessed, chunkCount =>
    let chunkPayloads := chunk_document document
    if chunkPayloads.isEmpty then
      ingestLoop embed crawlTs rest coll (docsProcessed + 1) chunkCount
    else
      match (chunkPayloads.map (fun p => p.2.1)).mapM embed with
      | .error _ => (.error .embedFailure, coll)
      | .ok vectors =>
        let points := docPoints crawlTs document vectors
        let coll' := delete_document_chunks coll document.doc_id
        if points.isEmpty then
          ingestLoop embed crawlTs rest coll' (docsProcessed + 1) chunkCount
        else
          ingestLoop embed crawlTs rest (upsertPoints coll' points)
            (docsProcessed + 1) (chunkCount + points.length)

/-- `run_ingest` of ingest.py.  `dataRoot` / `uploadsRoot` are the parsed
contents of the two candidate roots, `none` when the directory does not
exist.  When neither exists the source returns
`IngestResult(ok=True, counts=IngestCounts(docs=0, chunks=0))` without
touching the collection. -/
def run_ingest (embed : String → Except Unit (List ℚ)) (dim : Nat) (crawlTs : String)
    (dataRoot uploadsRoot : Option (List (Except Unit ParsedDocument)))
    (index : Option Collection) : Except IngestError IngestResult × Option Collection :=
  let roots := dataRoot.toList ++ uploadsRoot.toList
  if roots.isEmpty then
    (.ok { ok := true, counts := { docs := 0, chunks := 0 } }, index)
  else
    let coll := ensure_collection dim index
    let out := ingestLoop embed crawlTs roots.flatten coll 0 0
    (out.1, some out.2)

/-! ## Retrieval (retrieve.py `retrieve`, `_fallback_local_chunks`)

The environment bundles the deterministic external collaborators: the query
embedder, the similarity function of the in-memory client, the embedding
dimension, the markdown files under `settings.data_dir` (relative path and
content, in the sorted order `sorted(root.rglob("*.md"))` yields), and the
`uuid4().hex` value used for the (at most one) fabricated chunk of a call. -/

structure RetrieveEnv where
  embed : String → List ℚ
  sim : List ℚ → List ℚ → ℚ
  dim : Nat
  fs : List (String × String)
  freshId : String

/-- `str(hit.id)` for an ingested point id (the uuid5 string in the source;
any injective rendering works for the claims, none of which inspect ids). -/
def pointIdStr (i : ChunkIdT) : String := i.doc_id ++ ":" ++ toString i.idx

/-- Build a `RetrievedChunk` from a search hit: the metadata is the payload
minus its `text` key. -/
def toRetrievedChunk (hit : ScoredPoint) : RetrievedChunk :=
  { id := pointIdStr hit.id, text := hit.payload.text, score := hit.score,
    meta := hit.payload.meta }

/-- Keep the first occurrence of each element (models building a Python set
where only the count of distinct members is consumed afterwards). -/
def dedupFirst (l : List String) : List String :=
  l.foldl (fun acc x => if x ∈ acc then acc else acc ++ [x]) []

/-- The keyword set of `_fallback_local_chunks`:
`{w.lower() for w in re.findall(r"\\w+", query) if len(w) > 2}`.  The escaped
pattern matches a literal backslash followed by `w` characters, so this set is
empty for any query without such a sequence. -/
def fallbackKeywords (query : String) : List String :=
  dedupFirst (((findallEscW query).filter (fun w => 2 < w.length)).map pyLower)

/-- Score of one candidate file in `_fallback_local_chunks`: the number of
keywords occurring in the lowered file stem or the lowered content. -/
def fallbackScore (keywords : List String) (path content : String) : Int :=
  let name := pyLower (pathStem path)
  ((keywords.filter (fun kw => strHas kw name || strHas kw (pyLower content))).length : Int)

/-- The file loop of `_fallback_local_chunks`: track the best-scoring file,
breaking early when `best_score` is truthy and at least the keyword count. -/
def fallbackLoop (keywords : List String) :
    List (String × String) → Option (String × String) → Int → Option (String × String)
  | [], best, _ => best
  | (p, c) :: rest, best, bestScore =>
    let score := fallbackScore keywords p c
    let best' := if score > bestScore then some (p, c) else best
    let bestScore' := if score > bestScore then score else bestScore
    if bestScore' ≠ 0 ∧ (keywords.length : Int) ≤ bestScore' then best'
    else fallbackLoop keywords rest best' bestScore'

/-- The single synthetic chunk `_fallback_local_chunks` builds from the
best-scoring file: bounded leading content, nominal score 1.0, title from the
stem, tenant from `course_id` or the first path segment. -/
def mkFallbackChunk (freshId p c : String) (course_id : Option String) : RetrievedChunk :=
  { id := freshId,
    text := c.take 1000,
    score := 1,
    meta := { title := some (pyTitle ((pathStem p).replace "-" " ")),
              «section» := none,
              source_path := some p,
              course_id := if optTruthy course_id then course_id
                           else if p = "" then none else some (firstSegment p) } }

/-- `_fallback_local_chunks` of retrieve.py.  With a truthy `course_id` the
`try` block evaluates `resources.validate_course_id(course_id)`, but
`resources` is not imported in retrieve.py, so a `NameError` is raised and the
`except Exception` clause returns the empty list; the directory scan is only
reachable with a falsy `course_id` (and then its root is `settings.data_dir`). -/
def _fallback_local_chunks (fs : List (String × String)) (freshId : String)
    (query : String) (course_id : Option String) : List RetrievedChunk :=
  if optTruthy course_id then []
  else
    match fallbackLoop (fallbackKeywords query) fs none (-1) with
    | none => []
    | some (p, c) => [mkFallbackChunk freshId p c course_id]

/-- The fabricated "Late Policy" chunk of retrieve.py (built at two sites,
with score 0.4 and 0.5 respectively). -/
def lateChunk (freshId : String) (course_id : Option String) (score : ℚ) : RetrievedChunk :=
  { id := freshId,
    text := "Late submission policy placeholder.",
    score := score,
    meta := { title := some "Late Policy",
              «section» := none,
              source_path := some "data/late-policy.md",
              course_id := course_id } }

/-- Test of retrieve.py:
`"late" in str(chunk.metadata.get("source_path", "")).lower()`. -/
def hasLatePath (c : RetrievedChunk) : Bool :=
  strHas "late" (pyLower (c.meta.source_path.getD ""))

/-- Path of the hard-coded anth204 special case, relative to the data dir. -/
def anthPath : String := "anth204/announcements.md"

/-- Look a file up in the modelled data directory. -/
def fsLookup (fs : List (String × String)) (p : String) : Option String :=
  (fs.find? (fun e => e.1 == p)).map (·.2)

/-- The vector-search portion of `retrieve`: ensure the collection, embed the
query, search with the `course_id` filter (only when `course_id` is truthy),
re-rank with the keyword bias and project to `RetrievedChunk`s. -/
def searchChunks (env : RetrieveEnv) (index : Option Collection) (query : String)
    (topK : Nat) (course_id : Option String) : List RetrievedChunk :=
  let ensured := ensure_collection env.dim index
  let queryVector := env.embed query
  let flt := if optTruthy course_id then course_id else none
  let searchResult := searchIndex env.sim ensured.points queryVector topK flt
  (_apply_keyword_bias searchResult query).map toRetrievedChunk

/-- The value of the local variable `chunks` of `retrieve` after the
late-policy append: the search results, extended with the fabricated
late-policy chunk (score 0.4) when the query mentions "late" and no search
result has "late" in its source path. -/
def chunksWithLate (env : RetrieveEnv) (index : Option Collection) (query : String)
    (topK : Nat) (course_id : Option String) : List RetrievedChunk :=
  let base := searchChunks env index query topK course_id
  if strHas "late" (pyLower query) && !(base.any hasLatePath) then
    base ++ [lateChunk env.freshId course_id 0.4]
  else base

/-- `retrieve` of retrieve.py: semantic search with optional course filtering,
the fabricated late-policy chunk, the local-filesystem fallback, and the
anth204 special case, in source order. -/
def retrieve (env : RetrieveEnv) (index : Option Collection) (query : String)
    (topK : Nat) (course_id : Option String) : List RetrievedChunk :=
  let chunks := chunksWithLate env index query topK course_id
  if !chunks.isEmpty && chunks.any hasLatePath then chunks
  else
    let fallback := _fallback_local_chunks env.fs env.freshId query course_id
    if !fallback.isEmpty then fallback
    else if optTruthy course_id && pyLower (course_id.getD "") == "anth204" then
      match fsLookup env.fs anthPath with
      | some content =>
        [{ id := env.freshId, text := content.take 1000, score := 1,
           meta := { title := some "Anth204 Announcements", «section» := none,
                     source_path := some anthPath, course_id := course_id } }]
      | none =>
        if strHas "late" (pyLower query) then [lateChunk env.freshId course_id 0.5] else chunks
    else if strHas "late" (pyLower query) then [lateChunk env.freshId course_id 0.5]
    else chunks

/-- Parser outcomes of an all-parsed corpus (the generator yields every
document). -/
def okd (docs : List ParsedDocument) : List (Except Unit ParsedDocument) :=
  docs.map Except.ok

/-- A total embedding provider, lifted to the fallible embedding interface. -/
def tembed (f : String → List ℚ) : String → Except Unit (List ℚ) :=
  fun t => Except.ok (f t)

/-- The points `run_ingest` writes for one document whose batch embedding
succeeds, with per-text embedder `f`. -/
def docPointsF (f : String → List ℚ) (crawlTs : String)
    (document : ParsedDocument) : List PointStruct :=
  docPoints crawlTs document ((chunk_document document).map (fun p => f p.2.1))

/-- The points of an optional collection (`none` = collection absent). -/
def collPoints : Option Collection → List PointStruct
  | none => []
  | some c => c.points

/-! ## Concrete inputs used by witnesses and counterexamples -/

/-- A small parsed document for concrete ingestion runs. -/
def ingDocA : ParsedDocument :=
  { doc_id := "docA", version_id := "1", collection := "course", title := "A",
    source_path := "data/a.md", course_id := "c1",
    sections := [{ title := "A", content := "hello world" }] }

/-- A second small parsed document with a distinct `doc_id`. -/
def ingDocB : ParsedDocument :=
  { doc_id := "docB", version_id := "1", collection := "course", title := "B",
    source_path := "data/b.md", course_id := "c1",
    sections := [{ title := "B", content := "bye" }] }


def exPointA : ScoredPoint :=
  { id := ⟨"a", 0⟩, score := 0.9,
    payload := { text := "A text",
                 meta := { title := some "Grading overview", «section» := some "Intro",
                           source_path := some "docs/a.md", course_id := some "c1" } } }

def exPointB : ScoredPoint :=
  { id := ⟨"b", 0⟩, score := 0.85,
    payload := { text := "B text",
                 meta := { title := some "Exam timetable", «section» := some "Exams",
                           source_path := some "docs/b.md", course_id := some "c1" } } }

/-- Specification-side normalizer of the confidence claim:
`n(v, lo, hi) = clamp((v - lo)/(hi - lo), 0, 1)`, with no zero-width guard
(every bound pair used has `hi - lo` nonzero). -/
def specNorm (v lo hi : ℚ) : ℚ := max 0 (min 1 ((v - lo) / (hi - lo)))

/-- A retrieved chunk with score 0.9, for concrete confidence evaluation. -/
def confA : RetrievedChunk :=
  { id := "ca", text := "ta", score := 9/10, meta := { source_path := some "docs/a.md" } }

/-- A retrieved chunk with score 0.8, for concrete confidence evaluation. -/
def confB : RetrievedChunk :=
  { id := "cb", text := "tb", score := 4/5, meta := { source_path := some "docs/b.md" } }

/-- Environment with one markdown file on disk, for fallback-path runs. -/
def fbEnv : RetrieveEnv :=
  { embed := fun _ => [1], sim := fun _ _ => 1, dim := 1,
    fs := [("notes.md", "hello world")], freshId := "fid" }

/-- An indexed point with no "late" in its source path. -/
def fbPoint : PointStruct :=
  { id := ⟨"d1", 0⟩, vector := [1],
    payload := { text := "syllabus text",
                 meta := { doc_id := some "d1", title := some "Intro",
                           «section» := some "Overview",
                           source_path := some "docs/intro.md",
                           course_id := some "c1" } } }

/-- A one-point index for fallback-path runs. -/
def fbColl : Option Collection := some { points := [fbPoint], size := 1 }

/-- Environment with an empty data directory, for the late-policy run. -/
def lateEnv : RetrieveEnv :=
  { embed := fun _ => [1], sim := fun _ _ => 1, dim := 1, fs := [], freshId := "fid" }

/-- A tenant-c1 point, for the isolation run. -/
def isoPoint1 : PointStruct :=
  { id := ⟨"d1", 0⟩, vector := [1],
    payload := { text := "Course 1 syllabus text",
                 meta := { doc_id := some "d1", title := some "Syllabus",
                           «section» := some "Overview",
                           source_path := some "docs/syllabus.md",
                           course_id := some "c1" } } }

/-- A tenant-c2 point, for the isolation run. -/
def isoPoint2 : PointStruct :=
  { id := ⟨"d2", 0⟩, vector := [1],
    payload := { text := "Course 2 notes text",
                 meta := { doc_id := some "d2", title := some "Notes",
                           «section» := some "Week 1",
                           source_path := some "docs/notes.md",
                           course_id := some "c2" } } }

/-- A two-tenant index, for the isolation run. -/
def isoColl : Option Collection := some { points := [isoPoint1, isoPoint2], size := 1 }

/-- Environment with an empty data directory, for the isolation run. -/
def isoEnv : RetrieveEnv :=
  { embed := fun _ => [1], sim := fun _ _ => 1, dim := 1, fs := [], freshId := "fid" }

/-- The retrieved chunk that the isolation run returns for tenant c1. -/
def isoChunk1 : RetrievedChunk :=
  { id := "d1:0", text := "Course 1 syllabus text", score := 1,
    meta := { doc_id := some "d1", title := some "Syllabus",
              «section» := some "Overview",
              source_path := some "docs/syllabus.md",
              course_id := some "c1" } }

/-! ## Theorems -/


/-! ## C6: keyword-bias re-rank -/

lemma keyword_bias_perm (results : List ScoredPoint) (query : String) :
    (_apply_keyword_bias results query).Perm results := by
  unfold _apply_keyword_bias
  by_cases h : (queryKeywords query).isEmpty
  · simp [h]
  · simp only [h, Bool.false_eq_true, if_false, List.partition_eq_filter_filter]
    exact List.filter_append_perm _ _

/-- C6.  Keyword-bias re-rank is a stable score-preserving partition: the
output is the keyword-matching bucket (in input order) followed by the
non-matching bucket (in input order), a permutation of the input that also
permutes the score multiset; with an empty keyword set the input is returned
unchanged. -/
theorem keyword_bias_stable_partition (results : List ScoredPoint) (query : String) :
    (_apply_keyword_bias results query).Perm results ∧
    (queryKeywords query = [] → _apply_keyword_bias results query = results) ∧
    (queryKeywords query ≠ [] →
      _apply_keyword_bias results query =
        results.filter (keywordMatch query) ++
          results.filter (fun r => !(keywordMatch query r))) ∧
    ((_apply_keyword_bias results query).map (·.score)).Perm (results.map (·.score)) := by
  refine ⟨keyword_bias_perm results query, ?_, ?_, (keyword_bias_perm results query).map _⟩
  · intro h
    unfold _apply_keyword_bias
    simp [h]
  · intro h
    unfold _apply_keyword_bias
    rw [if_neg (by simpa using h)]
    simp only [List.partition_eq_filter_filter]
    rfl

/-- Witness for C6 at the scenario of the spec: query "exam schedule" against
`[A(0.9, unrelated title), B(0.85, title contains "exam")]` re-ranks to
`[B, A]`. -/
theorem keyword_bias_stable_partition_witness :
    queryKeywords "exam schedule" ≠ [] ∧
    _apply_keyword_bias [exPointA, exPointB] "exam schedule" =
      [exPointA, exPointB].filter (keywordMatch "exam schedule") ++
        [exPointA, exPointB].filter (fun r => !(keywordMatch "exam schedule" r)) ∧
    _apply_keyword_bias [exPointA, exPointB] "exam schedule" = [exPointB, exPointA] :=
  ⟨by decide,
   (keyword_bias_stable_partition [exPointA, exPointB] "exam schedule").2.2.1 (by decide),
   by rfl⟩


/-! ## C9: citation deduplication -/

lemma citePath_none (c : RetrievedChunk) (h : c.meta.source_path = none) :
    citePath c = none := by simp [citePath, h]

lemma citePath_empty (c : RetrievedChunk) (sp0 : String) (h : c.meta.source_path = some sp0)
    (h0 : sp0 = "") : citePath c = none := by simp [citePath, h, h0]

lemma citePath_some (c : RetrievedChunk) (sp0 : String) (h : c.meta.source_path = some sp0)
    (h0 : ¬ sp0 = "") : citePath c = some sp0 := by simp [citePath, h, h0]

lemma buildCitationsAux_spec (rest : List RetrievedChunk) :
    ∀ (past : List RetrievedChunk) (seen : List String),
    (∀ sp : String, sp ∈ seen ↔ past.any (fun c' => citePath c' == some sp) = true) →
    buildCitationsAux rest (past.length + 1) seen = specCitations past rest := by
  induction rest with
  | nil => intro past seen _; rfl
  | cons c t ih =>
    intro past seen hinv
    have hlen : past.length + 1 + 1 = (past ++ [c]).length + 1 := by simp
    have hskipinv : citePath c = none →
        ∀ sp : String, sp ∈ seen ↔ ((past ++ [c]).any (fun c' => citePath c' == some sp)) = true := by
      intro hcite sp; rw [hinv sp]; simp [hcite]
    cases hsp : c.meta.source_path with
    | none =>
      have hcite := citePath_none c hsp
      simp only [buildCitationsAux, hsp, specCitations, hcite, hlen]
      exact ih (past ++ [c]) seen (hskipinv hcite)
    | some sp0 =>
      by_cases hsp0 : sp0 = ""
      · have hcite := citePath_empty c sp0 hsp hsp0
        simp only [buildCitationsAux, hsp, specCitations, hcite, hlen]
        rw [if_pos (Or.inl hsp0)]
        exact ih (past ++ [c]) seen (hskipinv hcite)
      · have hcite := citePath_some c sp0 hsp hsp0
        by_cases hseen : sp0 ∈ seen
        · have hpast : past.any (fun c' => citePath c' == some sp0) = true := (hinv sp0).1 hseen
          have hinv' : ∀ sp : String,
              sp ∈ seen ↔ ((past ++ [c]).any (fun c' => citePath c' == some sp)) = true := by
            intro sp
            rw [hinv sp]
            simp only [List.any_append, Bool.or_eq_true, List.any_cons, List.any_nil,
              Bool.or_false, hcite, beq_iff_eq, Option.some.injEq]
            constructor
            · exact fun h => Or.inl h
            · rintro (h | h)
              · exact h
              · subst h; exact hpast
          simp only [buildCitationsAux, hsp, specCitations, hcite, hlen]
          rw [if_pos (Or.inr hseen), if_pos hpast]
          exact ih (past ++ [c]) seen hinv'
        · have hpast : ¬ past.any (fun c' => citePath c' == some sp0) = true := by
            intro h; exact hseen ((hinv sp0).2 h)
          have hinv' : ∀ sp : String,
              sp ∈ sp0 :: seen ↔ ((past ++ [c]).any (fun c' => citePath c' == some sp)) = true := by
            intro sp
            simp only [List.mem_cons, List.any_append, Bool.or_eq_true, List.any_cons,
              List.any_nil, Bool.or_false, hcite, beq_iff_eq, Option.some.injEq, hinv sp]
            constructor
            · rintro (h | h)
              · exact Or.inr h.symm
              · exact Or.inl h
            · rintro (h | h)
              · exact Or.inr h
              · exact Or.inl h.symm
          simp only [buildCitationsAux, hsp, specCitations, hcite, hlen]
          rw [if_neg (by push_neg; exact ⟨hsp0, hseen⟩), if_neg hpast]
          rw [ih (past ++ [c]) (sp0 :: seen) hinv']

lemma buildCitationsAux_paths (rest : List RetrievedChunk) :
    ∀ (idx : Nat) (seen : List String),
    ((buildCitationsAux rest idx seen).map (·.source_path)).Nodup ∧
    (∀ cit ∈ buildCitationsAux rest idx seen, cit.source_path ∉ seen) ∧
    (∀ sp : String, (∃ cit ∈ buildCitationsAux rest idx seen, cit.source_path = sp) ↔
        (sp ∉ seen ∧ ∃ c ∈ rest, citePath c = some sp)) := by
  induction rest with
  | nil => intro idx seen; simp [buildCitationsAux]
  | cons c t ih =>
    intro idx seen
    cases hsp : c.meta.source_path with
    | none =>
      have hcite := citePath_none c hsp
      have hskip : buildCitationsAux (c :: t) idx seen = buildCitationsAux t (idx+1) seen := by
        simp only [buildCitationsAux, hsp]
      rw [hskip]
      refine ⟨(ih (idx+1) seen).1, (ih (idx+1) seen).2.1, ?_⟩
      intro sp
      rw [(ih (idx+1) seen).2.2 sp]
      simp [hcite]
    | some sp0 =>
      by_cases hcond : sp0 = "" ∨ sp0 ∈ seen
      · have hskip : buildCitationsAux (c :: t) idx seen = buildCitationsAux t (idx+1) seen := by
          simp only [buildCitationsAux, hsp]
          rw [if_pos hcond]
        rw [hskip]
        refine ⟨(ih (idx+1) seen).1, (ih (idx+1) seen).2.1, ?_⟩
        intro sp
        rw [(ih (idx+1) seen).2.2 sp]
        constructor
        · rintro ⟨hns, c', hc', hcp⟩
          exact ⟨hns, c', List.mem_cons_of_mem _ hc', hcp⟩
        · rintro ⟨hns, c', hc', hcp⟩
          refine ⟨hns, ?_⟩
          rcases List.mem_cons.1 hc' with heq | hmem
          · subst heq
            by_cases h0 : sp0 = ""
            · rw [citePath_empty c' sp0 hsp h0] at hcp; cases hcp
            · rw [citePath_some c' sp0 hsp h0] at hcp
              have h1 : sp0 = sp := Option.some.inj hcp
              subst h1
              rcases hcond with h0' | hseen
              · exact absurd h0' h0
              · exact absurd hseen hns
          · exact ⟨c', hmem, hcp⟩
      · push_neg at hcond
        have hcite := citePath_some c sp0 hsp hcond.1
        have hemit : buildCitationsAux (c :: t) idx seen =
            { title := c.meta.title.getD ("Source " ++ toString idx),
              «section» := c.meta.«section», source_path := sp0 } ::
              buildCitationsAux t (idx+1) (sp0 :: seen) := by
          simp only [buildCitationsAux, hsp]
          rw [if_neg (by push_neg; exact hcond)]
        rw [hemit]
        have iht := ih (idx+1) (sp0 :: seen)
        refine ⟨?_, ?_, ?_⟩
        · simp only [List.map_cons, List.nodup_cons]
          refine ⟨?_, iht.1⟩
          intro hmem
          rcases List.mem_map.1 hmem with ⟨cit, hcit, hpath⟩
          exact (iht.2.1 cit hcit) (hpath ▸ List.mem_cons_self _ _)
        · intro cit hcit
          rcases List.mem_cons.1 hcit with heq | hmem
          · subst heq; exact hcond.2
          · intro hs; exact (iht.2.1 cit hmem) (List.mem_cons_of_mem _ hs)
        · intro sp
          constructor
          · rintro ⟨cit, hcit, hpath⟩
            rcases List.mem_cons.1 hcit with heq | hmem
            · subst heq
              exact ⟨hpath ▸ hcond.2, c, List.mem_cons_self _ _, hpath ▸ hcite⟩
            · have h2 := (iht.2.2 sp).1 ⟨cit, hmem, hpath⟩
              refine ⟨fun hs => h2.1 (List.mem_cons_of_mem _ hs), ?_⟩
              rcases h2.2 with ⟨c', hc', hcp⟩
              exact ⟨c', List.mem_cons_of_mem _ hc', hcp⟩
          · rintro ⟨hns, c', hc', hcp⟩
            by_cases hsp' : sp = sp0
            · subst hsp'
              exact ⟨_, List.mem_cons_self _ _, rfl⟩
            · have hmem' : c' ∈ t := by
                rcases List.mem_cons.1 hc' with heq | hmem
                · subst heq
                  rw [hcite] at hcp
                  exact absurd (Option.some.inj hcp).symm hsp'
                · exact hmem
              have hnotin : sp ∉ sp0 :: seen := by
                intro hs
                rcases List.mem_cons.1 hs with h | h
                · exact hsp' h
                · exact hns h
              rcases (iht.2.2 sp).2 ⟨hnotin, c', hmem', hcp⟩ with ⟨cit, hcit, hpath⟩
              exact ⟨cit, List.mem_cons_of_mem _ hcit, hpath⟩

/-- C9.  Citation deduplication: `_build_citations` equals the
specification-side first-seen dedup (each distinct non-empty source path cited
exactly once, in first-occurrence order, carrying the first-seen chunk's title
and section), its citation paths contain no duplicates, and a path is cited
exactly when some chunk carries it as its non-empty source path. -/
theorem build_citations_dedup (chunks : List RetrievedChunk) :
    _build_citations chunks = specCitations [] chunks ∧
    ((_build_citations chunks).map (·.source_path)).Nodup ∧
    (∀ sp : String, (∃ cit ∈ _build_citations chunks, cit.source_path = sp) ↔
      ∃ c ∈ chunks, citePath c = some sp) := by
  have h0 : _build_citations chunks = buildCitationsAux chunks 1 [] := rfl
  refine ⟨buildCitationsAux_spec chunks [] [] (by simp), ?_, ?_⟩
  · rw [h0]; exact (buildCitationsAux_paths chunks 1 []).1
  · intro sp
    rw [h0, (buildCitationsAux_paths chunks 1 []).2.2 sp]
    simp

/-! ## C3: confidence scorer -/

lemma sortDescQ_perm (l : List ℚ) : (sortDescQ l).Perm l := List.perm_insertionSort _ l

lemma sortDescQ_sorted (l : List ℚ) : (sortDescQ l).Sorted (fun a b => a ≥ b) := by
  haveI : IsTotal ℚ (fun a b : ℚ => a ≥ b) := ⟨fun a b => le_total b a⟩
  haveI : IsTrans ℚ (fun a b : ℚ => a ≥ b) := ⟨fun _ _ _ hab hbc => le_trans hbc hab⟩
  exact List.sorted_insertionSort _ l

lemma sortDescQ_head_ge (l : List ℚ) (m : ℚ) (rest : List ℚ)
    (h : sortDescQ l = m :: rest) : ∀ x ∈ l, x ≤ m := by
  intro x hx
  have hx' : x ∈ m :: rest := h ▸ ((sortDescQ_perm l).mem_iff.2 hx)
  rcases List.mem_cons.1 hx' with rfl | hmem
  · exact le_refl _
  · have hs := sortDescQ_sorted l
    rw [h] at hs
    exact List.rel_of_sorted_cons hs x hmem

lemma foldl_min_le_init (t : List ℚ) : ∀ a : ℚ, t.foldl min a ≤ a := by
  induction t with
  | nil => intro a; exact le_refl _
  | cons b t ih =>
    intro a
    calc (b :: t).foldl min a = t.foldl min (min a b) := rfl
    _ ≤ min a b := ih _
    _ ≤ a := min_le_left _ _

lemma foldl_min_le_mem (t : List ℚ) : ∀ (a x : ℚ), x ∈ t → t.foldl min a ≤ x := by
  induction t with
  | nil => intro a x hx; cases hx
  | cons b t ih =>
    intro a x hx
    rcases List.mem_cons.1 hx with rfl | hmem
    · calc (x :: t).foldl min a = t.foldl min (min a x) := rfl
      _ ≤ min a x := foldl_min_le_init _ _
      _ ≤ x := min_le_right _ _
    · exact ih _ x hmem

lemma foldl_min_mem (t : List ℚ) : ∀ a : ℚ, t.foldl min a = a ∨ t.foldl min a ∈ t := by
  induction t with
  | nil => intro a; exact Or.inl rfl
  | cons b t ih =>
    intro a
    rcases ih (min a b) with h | h
    · rcases min_choice a b with hm | hm
      · exact Or.inl (by rw [List.foldl_cons, h, hm])
      · refine Or.inr ?_
        rw [List.foldl_cons, h, hm]
        exact List.mem_cons_self _ _
    · exact Or.inr (List.mem_cons_of_mem _ h)

lemma listMinQ_mem (l : List ℚ) (h : l ≠ []) : listMinQ l ∈ l := by
  cases l with
  | nil => exact absurd rfl h
  | cons a t =>
    rcases foldl_min_mem t a with h' | h'
    · rw [listMinQ, h']; exact List.mem_cons_self _ _
    · exact List.mem_cons_of_mem _ h'

lemma listMinQ_le (l : List ℚ) : ∀ x ∈ l, listMinQ l ≤ x := by
  intro x hx
  cases l with
  | nil => cases hx
  | cons a t =>
    rcases List.mem_cons.1 hx with rfl | hmem
    · exact foldl_min_le_init t x
    · exact foldl_min_le_mem t a x hmem

lemma roundHalfEven_bounds (m : ℚ) (h0 : 0 ≤ m) (h1 : m ≤ 100) :
    0 ≤ roundHalfEven m ∧ roundHalfEven m ≤ 100 := by
  have hf0 : (0 : ℤ) ≤ ⌊m⌋ := Int.le_floor.2 (by exact_mod_cast h0)
  have hf1 : ⌊m⌋ ≤ 100 := by
    have h := Int.floor_le_floor (α := ℚ) h1
    simpa using h
  have hstrict : (1 : ℚ)/2 ≤ m - ⌊m⌋ → ⌊m⌋ < 100 := by
    intro hh
    have hle : (⌊m⌋ : ℚ) ≤ m - 1/2 := by linarith
    have : (⌊m⌋ : ℚ) < 100 := by linarith
    exact_mod_cast this
  unfold roundHalfEven
  split_ifs with hlt hgt hev
  · exact ⟨hf0, hf1⟩
  · have := hstrict (not_lt.1 hlt)
    exact ⟨by omega, by omega⟩
  · exact ⟨hf0, hf1⟩
  · have := hstrict (not_lt.1 hlt)
    exact ⟨by omega, by omega⟩

lemma pyRound2_bounds (q : ℚ) (h0 : 0 ≤ q) (h1 : q ≤ 1) :
    0 ≤ pyRound2 q ∧ pyRound2 q ≤ 1 := by
  have h := roundHalfEven_bounds (q * 100) (by positivity) (by linarith)
  unfold pyRound2
  constructor
  · apply div_nonneg _ (by norm_num)
    exact_mod_cast h.1
  · rw [div_le_one (by norm_num)]
    exact_mod_cast h.2

lemma pyRound2_clamp_bounds (x : ℚ) :
    0 ≤ pyRound2 (max 0 (min 1 x)) ∧ pyRound2 (max 0 (min 1 x)) ≤ 1 :=
  pyRound2_bounds _ (le_max_left _ _) (max_le (by norm_num) (min_le_left _ _))

/-- C3.  Confidence score definition: the result is always within [0, 1],
empty input gives 0, and for nonempty input the result equals
`round2(clamp(0.5 n(max, .3, 1) + 0.2 n(max - second, 0, .4) +
0.2 n(max - min, 0, .5) + 0.1 n(count/topK, .3, 1), 0, 1))` with
`n = specNorm`, where `max` is the head of the descending sort (proved to
bound every score), `second` its successor (or `max` alone), and `min` the
least score (proved to be the minimum). -/
theorem compute_confidence_spec (topK : Nat) (chunks : List RetrievedChunk) (htop : 0 < topK) :
    (0 ≤ _compute_confidence topK chunks ∧ _compute_confidence topK chunks ≤ 1) ∧
    (chunks = [] → _compute_confidence topK chunks = 0) ∧
    (∀ maxScore restSorted, sortDescQ (chunks.map (·.score)) = maxScore :: restSorted →
      (maxScore :: restSorted).Perm (chunks.map (·.score)) ∧
      (∀ x ∈ chunks.map (·.score), x ≤ maxScore) ∧
      (listMinQ (chunks.map (·.score)) ∈ chunks.map (·.score) ∧
        ∀ x ∈ chunks.map (·.score), listMinQ (chunks.map (·.score)) ≤ x) ∧
      _compute_confidence topK chunks =
        pyRound2 (max 0 (min 1
          (0.5 * specNorm maxScore 0.3 1 +
           0.2 * specNorm (maxScore - restSorted.headD maxScore) 0 0.4 +
           0.2 * specNorm (maxScore - listMinQ (chunks.map (·.score))) 0 0.5 +
           0.1 * specNorm ((chunks.length : ℚ) / (topK : ℚ)) 0.3 1)))) := by
  refine ⟨?_, ?_, ?_⟩
  · unfold _compute_confidence
    by_cases hc : chunks.isEmpty
    · simp [hc]
    · simp only [hc, Bool.false_eq_true, if_false]
      cases hs : sortDescQ (chunks.map fun x => x.score) with
      | nil => norm_num
      | cons m r => exact pyRound2_clamp_bounds _
  · intro h; subst h; rfl
  · intro maxScore restSorted hsort
    have hchunks : chunks ≠ [] := by
      intro h
      subst h
      simp [sortDescQ, List.insertionSort] at hsort
    have hmapne : chunks.map (·.score) ≠ [] := by
      simpa using hchunks
    refine ⟨hsort ▸ sortDescQ_perm (chunks.map (·.score)), sortDescQ_head_ge _ _ _ hsort,
      ⟨listMinQ_mem _ hmapne, listMinQ_le _⟩, ?_⟩
    have hne : chunks.isEmpty = false := by
      simpa [List.isEmpty_iff] using hchunks
    have e1 : ∀ v : ℚ, _normalize v 0.3 1 = specNorm v 0.3 1 := by
      intro v; rw [_normalize, specNorm, if_neg (by norm_num)]
    have e2 : ∀ v : ℚ, _normalize v 0 0.4 = specNorm v 0 0.4 := by
      intro v; rw [_normalize, specNorm, if_neg (by norm_num)]
    have e3 : ∀ v : ℚ, _normalize v 0 0.5 = specNorm v 0 0.5 := by
      intro v; rw [_normalize, specNorm, if_neg (by norm_num)]
    simp only [_compute_confidence, hne, Bool.false_eq_true, if_false, hsort, e1, e2, e3,
      List.length_map]

/-- Witness for C3 at two concrete chunks (scores 0.9 and 0.8, `topK = 6`):
the confidence equals the claim formula, lies in bounds, and is 0.52. -/
theorem compute_confidence_spec_witness :
    (0 ≤ _compute_confidence 6 [confA, confB] ∧ _compute_confidence 6 [confA, confB] ≤ 1) ∧
    _compute_confidence 6 [confA, confB] =
      pyRound2 (max 0 (min 1
        (0.5 * specNorm (9/10) 0.3 1 +
         0.2 * specNorm ((9/10) - ([(4:ℚ)/5].headD (9/10))) 0 0.4 +
         0.2 * specNorm ((9/10) - listMinQ (List.map (fun x => x.score) [confA, confB])) 0 0.5 +
         0.1 * specNorm ((([confA, confB].length : ℕ) : ℚ) / ((6 : ℕ) : ℚ)) 0.3 1))) ∧
    _compute_confidence 6 [confA, confB] = 13/25 := by
  have hsort : sortDescQ (List.map (fun x => x.score) [confA, confB]) = [9/10, 4/5] := by
    unfold sortDescQ confA confB
    simp [List.insertionSort, List.orderedInsert]
    norm_num
  have h := compute_confidence_spec 6 [confA, confB] (by norm_num)
  have heq := (h.2.2 (9/10) [4/5] hsort).2.2.2
  refine ⟨h.1, heq, ?_⟩
  rw [heq]
  have hmin : listMinQ (List.map (fun x => x.score) [confA, confB]) = 4/5 := by
    simp [listMinQ, confA, confB]
    norm_num
  rw [hmin]
  have hin : (0 : ℚ) ⊔ (1 ⊓ (0.5 * specNorm (9/10) 0.3 1 +
      0.2 * specNorm ((9/10) - ([(4:ℚ)/5].headD (9/10))) 0 0.4 +
      0.2 * specNorm ((9/10) - (4/5 : ℚ)) 0 0.5 +
      0.1 * specNorm ((([confA, confB].length : ℕ) : ℚ) / ((6 : ℕ) : ℚ)) 0.3 1)) = 1099/2100 := by
    norm_num [specNorm]
  rw [hin, pyRound2]
  have hfl : ⌊(1099 : ℚ)/2100 * 100⌋ = 52 := by
    rw [Int.floor_eq_iff] <;> norm_num
  rw [roundHalfEven, hfl]
  norm_num

/-! ## C4: chunk coverage and overlap -/

lemma chunkSpans_cover (n : Nat) : ∀ start, ∀ i, start ≤ i → i < n →
    ∃ p ∈ chunkSpans n start, p.1 ≤ i ∧ i < p.2 := by
  refine chunkSpans.induct n
    (fun s => ∀ i, s ≤ i → i < n → ∃ p ∈ chunkSpans n s, p.1 ≤ i ∧ i < p.2) ?_ ?_
  · intro s hs ih i hsi hin
    rw [chunkSpans, dif_pos hs]
    by_cases he : min (s + MAX_TOKENS) n = n
    · rw [if_pos he]
      exact ⟨(s, min (s + MAX_TOKENS) n), List.mem_singleton.2 rfl, hsi, by omega⟩
    · rw [if_neg he]
      by_cases hlt : i < min (s + MAX_TOKENS) n
      · exact ⟨(s, min (s + MAX_TOKENS) n), List.mem_cons_self _ _, hsi, hlt⟩
      · have hge : min (s + MAX_TOKENS) n - OVERLAP ≤ i := by
          simp only [MAX_TOKENS, OVERLAP] at *
          omega
        rcases ih he i hge hin with ⟨p, hp, h1, h2⟩
        exact ⟨p, List.mem_cons_of_mem _ hp, h1, h2⟩
  · intro s hns i hsi hin
    omega

lemma chunkSpans_shape (n : Nat) : ∀ start, ∀ p ∈ chunkSpans n start,
    p.2 = min (p.1 + MAX_TOKENS) n ∧ p.1 < p.2 ∧ p.2 ≤ n := by
  refine chunkSpans.induct n
    (fun s => ∀ p ∈ chunkSpans n s, p.2 = min (p.1 + MAX_TOKENS) n ∧ p.1 < p.2 ∧ p.2 ≤ n) ?_ ?_
  · intro s hs ih p hp
    rw [chunkSpans, dif_pos hs] at hp
    by_cases he : min (s + MAX_TOKENS) n = n
    · rw [if_pos he] at hp
      have hp' : p = (s, min (s + MAX_TOKENS) n) := List.mem_singleton.1 hp
      subst hp'
      refine ⟨rfl, ?_, ?_⟩ <;> (simp only [MAX_TOKENS, OVERLAP] at *; omega)
    · rw [if_neg he] at hp
      rcases List.mem_cons.1 hp with hp' | hmem
      · subst hp'
        refine ⟨rfl, ?_, ?_⟩ <;> (simp only [MAX_TOKENS, OVERLAP] at *; omega)
      · exact ih he p hmem
  · intro s hns p hp
    rw [chunkSpans, dif_neg hns] at hp
    cases hp

lemma chunkSpans_chain (n : Nat) : ∀ start,
    List.Chain' (fun a b : Nat × Nat => b.1 + OVERLAP = a.2 ∧ a.2 = a.1 + MAX_TOKENS ∧ a.2 < n)
      (chunkSpans n start) := by
  refine chunkSpans.induct n
    (fun s => List.Chain'
      (fun a b : Nat × Nat => b.1 + OVERLAP = a.2 ∧ a.2 = a.1 + MAX_TOKENS ∧ a.2 < n)
      (chunkSpans n s)) ?_ ?_
  · intro s hs ih
    rw [chunkSpans, dif_pos hs]
    by_cases he : min (s + MAX_TOKENS) n = n
    · rw [if_pos he]
      exact List.chain'_singleton _
    · rw [if_neg he]
      rw [List.chain'_cons']
      refine ⟨?_, ih he⟩
      intro y hy
      have hlt : min (s + MAX_TOKENS) n - OVERLAP < n := by
        simp only [MAX_TOKENS, OVERLAP] at *
        omega
      rw [chunkSpans, dif_pos hlt] at hy
      simp only [List.head?_cons, Option.mem_def, Option.some.injEq] at hy
      subst hy
      refine ⟨?_, ?_, ?_⟩ <;> (simp only [MAX_TOKENS, OVERLAP] at *; omega)
  · intro s hns
    rw [chunkSpans, dif_neg hns]
    exact List.chain'_nil

lemma chunkTextAux_spans (words : List String) : ∀ start,
    chunkTextAux words start = (chunkSpans words.length start).map
      (fun p => String.intercalate " " ((words.drop p.1).take (p.2 - p.1))) := by
  refine chunkTextAux.induct words
    (fun s => chunkTextAux words s = (chunkSpans words.length s).map
      (fun p => String.intercalate " " ((words.drop p.1).take (p.2 - p.1)))) ?_ ?_
  · intro s hs ih
    rw [chunkTextAux, chunkSpans, dif_pos hs, dif_pos hs]
    by_cases he : min (s + MAX_TOKENS) words.length = words.length
    · rw [if_pos he, if_pos he]
      simp
    · rw [if_neg he, if_neg he, ih he]
      simp
  · intro s hns
    rw [chunkTextAux, chunkSpans, dif_neg hns, dif_neg hns]
    rfl

lemma pySplitAux_ws : ∀ cs : List Char, (∀ c ∈ cs, c.isWhitespace = true) →
    pySplitAux cs [] = [] := by
  intro cs
  induction cs with
  | nil => intro _; rfl
  | cons c t ih =>
    intro h
    have hc : c.isWhitespace = true := h c (List.mem_cons_self _ _)
    simp only [pySplitAux, hc, if_true, List.isEmpty_nil]
    exact ih (fun x hx => h x (List.mem_cons_of_mem _ hx))

/-- C4.  Chunk coverage and overlap for `chunk_text` at the module defaults
(`MAX_TOKENS = 700`, `OVERLAP = 120`): the emitted chunks are exactly the
word windows described by `chunkSpans`; every word index of the split text
lies in some window; every window is nonempty and at most `MAX_TOKENS` wide;
consecutive windows overlap in exactly the `OVERLAP` indices
`[next.start, prev.end)` with every non-final window exactly `MAX_TOKENS`
wide (so only the final chunk may be shorter); and whitespace-only text
yields no chunks. -/
theorem chunk_text_coverage_overlap (text : String) :
    chunk_text text = (chunkSpans (pySplit text).length 0).map
      (fun p => String.intercalate " " (((pySplit text).drop p.1).take (p.2 - p.1))) ∧
    (∀ i, i < (pySplit text).length →
      ∃ p ∈ chunkSpans (pySplit text).length 0, p.1 ≤ i ∧ i < p.2) ∧
    (∀ p ∈ chunkSpans (pySplit text).length 0,
      p.1 < p.2 ∧ p.2 - p.1 ≤ MAX_TOKENS ∧ p.2 ≤ (pySplit text).length) ∧
    (∀ k (h : k + 1 < (chunkSpans (pySplit text).length 0).length),
      ((chunkSpans (pySplit text).length 0).get ⟨k+1, h⟩).1 + OVERLAP =
        ((chunkSpans (pySplit text).length 0).get ⟨k, Nat.lt_of_succ_lt h⟩).2 ∧
      ((chunkSpans (pySplit text).length 0).get ⟨k, Nat.lt_of_succ_lt h⟩).2 -
        ((chunkSpans (pySplit text).length 0).get ⟨k, Nat.lt_of_succ_lt h⟩).1 = MAX_TOKENS ∧
      ((chunkSpans (pySplit text).length 0).get ⟨k, Nat.lt_of_succ_lt h⟩).1 <
        ((chunkSpans (pySplit text).length 0).get ⟨k+1, h⟩).1 ∧
      ((chunkSpans (pySplit text).length 0).get ⟨k, Nat.lt_of_succ_lt h⟩).2 ≤
        ((chunkSpans (pySplit text).length 0).get ⟨k+1, h⟩).2) ∧
    ((∀ c ∈ text.toList, c.isWhitespace = true) → chunk_text text = []) := by
  refine ⟨chunkTextAux_spans (pySplit text) 0, fun i hi => chunkSpans_cover _ 0 i (Nat.zero_le i) hi, ?_, ?_, ?_⟩
  · intro p hp
    have h := chunkSpans_shape _ 0 p hp
    refine ⟨h.2.1, ?_, h.2.2⟩
    have := h.1
    omega
  · intro k h
    have hchain := chunkSpans_chain (pySplit text).length 0
    rw [List.chain'_iff_get] at hchain
    have hk := hchain k (by omega)
    have hb := chunkSpans_shape (pySplit text).length 0
      ((chunkSpans (pySplit text).length 0).get ⟨k+1, h⟩) (List.get_mem _ _ h)
    refine ⟨hk.1, by omega, ?_, ?_⟩
    · have h1 := hk.1
      have h2 := hk.2.1
      simp only [MAX_TOKENS, OVERLAP] at *
      omega
    · have h1 := hk.1
      have h3 := hk.2.2
      have h4 := hb.1
      simp only [MAX_TOKENS, OVERLAP] at *
      omega
  · intro hws
    have : pySplit text = [] := pySplitAux_ws text.toList hws
    rw [chunk_text, this, chunkTextAux]
    simp

/-- Witness for C4 at concrete texts: "a b" chunks to the single window
`[(0, 2)]` whose rendering is `"a b"`, word index 1 is covered, and a
whitespace-only text yields no chunks. -/
theorem chunk_text_coverage_overlap_witness :
    chunk_text "a b" = ["a b"] ∧
    (∃ p ∈ chunkSpans (pySplit "a b").length 0, p.1 ≤ 1 ∧ 1 < p.2) ∧
    chunk_text "   " = [] := by
  have h1 := chunk_text_coverage_overlap "a b"
  have h2 := chunk_text_coverage_overlap "   "
  refine ⟨?_, h1.2.1 1 (by decide), h2.2.2.2.2 (by decide)⟩
  rw [h1.1]
  have hs : chunkSpans (pySplit "a b").length 0 = [(0, 2)] := by
    rw [show (pySplit "a b").length = 2 by decide]
    rw [chunkSpans]
    norm_num [MAX_TOKENS]
  rw [hs]
  decide

/-! ## Ingestion lemmas (C5, C8, C10) -/

lemma mapM_tembed (f : String → List ℚ) : ∀ l : List String,
    l.mapM (tembed f) = .ok (l.map f) := by
  intro l
  induction l with
  | nil => rfl
  | cons a t ih => rw [List.mapM_cons, ih]; rfl

lemma tembed_batch (f : String → List ℚ) (d : ParsedDocument) :
    ((chunk_document d).map (fun p => p.2.1)).mapM (tembed f) =
      .ok ((chunk_document d).map (fun p => f p.2.1)) := by
  rw [mapM_tembed, List.map_map]
  rfl

lemma docPoints_doc_id (ts : String) (d : ParsedDocument) (vecs : List (List ℚ)) :
    ∀ pt ∈ docPoints ts d vecs, pt.payload.meta.doc_id = some d.doc_id := by
  intro pt hpt
  rcases List.mem_map.1 hpt with ⟨pv, _, rfl⟩
  rfl

lemma docPointsF_doc_id (f : String → List ℚ) (ts : String) (d : ParsedDocument) :
    ∀ pt ∈ docPointsF f ts d, pt.payload.meta.doc_id = some d.doc_id :=
  docPoints_doc_id ts d _

lemma docPointsF_length (f : String → List ℚ) (ts : String) (d : ParsedDocument) :
    (docPointsF f ts d).length = (chunk_document d).length := by
  rw [docPointsF, docPoints, List.length_map, List.length_zip, List.length_map]
  omega

lemma zip_map_self {α β γ : Type} (l : List α) (f : α → β) (h : α × β → γ) :
    (l.zip (l.map f)).map h = l.map (fun x => h (x, f x)) := by
  induction l with
  | nil => rfl
  | cons a t ih => simp only [List.map_cons, List.zip_cons_cons, ih]

lemma docPointsF_ids (f : String → List ℚ) (ts : String) (d : ParsedDocument) :
    (docPointsF f ts d).map (·.id) =
      (chunk_document d).map (fun p => deterministic_chunk_id d.doc_id p.1) := by
  rw [docPointsF, docPoints, List.map_map]
  exact zip_map_self _ _ _

lemma flatMap_docPointsF_ids (f : String → List ℚ) (ts : String) :
    ∀ docs : List ParsedDocument,
    (docs.flatMap (docPointsF f ts)).map (·.id) =
      docs.flatMap (fun d => (chunk_document d).map
        (fun p => deterministic_chunk_id d.doc_id p.1)) := by
  intro docs
  induction docs with
  | nil => rfl
  | cons d t ih => simp only [List.flatMap_cons, List.map_append, ih, docPointsF_ids]

lemma flatMap_docPointsF_length (f : String → List ℚ) (ts1 ts2 : String) :
    ∀ docs : List ParsedDocument,
    (docs.flatMap (docPointsF f ts1)).length = (docs.flatMap (docPointsF f ts2)).length := by
  intro docs
  induction docs with
  | nil => rfl
  | cons d t ih =>
    simp only [List.flatMap_cons, List.length_append, ih, docPointsF_length]

lemma flatMap_docPointsF_doc_id (f : String → List ℚ) (ts : String)
    (t : List ParsedDocument) : ∀ pt ∈ t.flatMap (docPointsF f ts),
    ∃ d ∈ t, pt.payload.meta.doc_id = some d.doc_id := by
  intro pt hpt
  rcases List.mem_flatMap.1 hpt with ⟨d, hd, hptd⟩
  exact ⟨d, hd, docPointsF_doc_id f ts d pt hptd⟩

lemma delete_no_match (pts : List PointStruct) (did : String)
    (h : ∀ pt ∈ pts, pt.payload.meta.doc_id ≠ some did) :
    pts.filter (fun p => !(p.payload.meta.doc_id == some did)) = pts := by
  apply List.filter_eq_self.2
  intro pt hpt
  simp [h pt hpt]

lemma delete_all_match (pts : List PointStruct) (did : String)
    (h : ∀ pt ∈ pts, pt.payload.meta.doc_id = some did) :
    pts.filter (fun p => !(p.payload.meta.doc_id == some did)) = [] := by
  apply List.filter_eq_nil.2
  intro pt hpt
  simp [h pt hpt]

lemma docPointsF_empty (f : String → List ℚ) (ts : String) (d : ParsedDocument)
    (h : chunk_document d = []) : docPointsF f ts d = [] := by
  rw [docPointsF, docPoints, h]
  rfl

lemma docPointsF_isEmpty_false (f : String → List ℚ) (ts : String) (d : ParsedDocument)
    (h : (chunk_document d).isEmpty = false) : (docPointsF f ts d).isEmpty = false := by
  have hlen := docPointsF_length f ts d
  rcases hl : docPointsF f ts d with _ | ⟨p, ps⟩
  · rw [hl] at hlen
    rcases hc : chunk_document d with _ | ⟨q, qs⟩
    · rw [hc] at h; cases h
    · rw [hc] at hlen; simp at hlen
  · rfl

lemma ingestLoop_nil (g : String → Except Unit (List ℚ)) (ts : String) (coll : Collection)
    (dp cc : Nat) : ingestLoop g ts [] coll dp cc =
      (.ok { ok := true, counts := { docs := dp, chunks := cc } }, coll) := rfl

lemma ingestLoop_ok_lead (g : String → Except Unit (List ℚ)) (f : String → List ℚ)
    (ts : String) (pre : List ParsedDocument) :
    ∀ (rest : List (Except Unit ParsedDocument)) (coll : Collection) (dp cc : Nat),
    ((pre.map (·.doc_id)).Nodup) →
    (∀ pt ∈ coll.points, ∀ d ∈ pre, pt.payload.meta.doc_id ≠ some d.doc_id) →
    (∀ d ∈ pre, ((chunk_document d).map (fun p => p.2.1)).mapM g =
      .ok ((chunk_document d).map (fun p => f p.2.1))) →
    ingestLoop g ts (okd pre ++ rest) coll dp cc =
      ingestLoop g ts rest
        { points := coll.points ++ pre.flatMap (docPointsF f ts), size := coll.size }
        (dp + pre.length) (cc + (pre.flatMap (docPointsF f ts)).length) := by
  induction pre with
  | nil =>
    intro rest coll dp cc _ _ _
    simp [okd]
  | cons d t ih =>
    intro rest coll dp cc hnd hdisj hemb
    have hndt : (t.map (·.doc_id)).Nodup := (List.nodup_cons.1 hnd).2
    have hdid : d.doc_id ∉ t.map (·.doc_id) := (List.nodup_cons.1 hnd).1
    have hembt : ∀ d' ∈ t, ((chunk_document d').map (fun p => p.2.1)).mapM g =
        .ok ((chunk_document d').map (fun p => f p.2.1)) :=
      fun d' hd' => hemb d' (List.mem_cons_of_mem _ hd')
    by_cases hemp : (chunk_document d).isEmpty
    · have hempl : chunk_document d = [] := List.isEmpty_iff.1 hemp
      have hstep : ingestLoop g ts (okd (d :: t) ++ rest) coll dp cc =
          ingestLoop g ts (okd t ++ rest) coll (dp + 1) cc := by
        simp only [okd, List.map_cons, List.cons_append, ingestLoop, hemp, if_true]
        rfl
      rw [hstep, ih rest coll (dp + 1) cc hndt
        (fun pt hpt d' hd' => hdisj pt hpt d' (List.mem_cons_of_mem _ hd')) hembt]
      rw [List.flatMap_cons, docPointsF_empty f ts d hempl]
      simp only [List.nil_append, List.length_cons]
      have e1 : dp + (t.length + 1) = dp + 1 + t.length := by omega
      rw [e1]
    · have hempf : (chunk_document d).isEmpty = false := by
        simpa using hemp
      have hne := docPointsF_isEmpty_false f ts d hempf
      have hdel : delete_document_chunks coll d.doc_id = coll := by
        rw [delete_document_chunks, delete_no_match coll.points d.doc_id
          (fun pt hpt => hdisj pt hpt d (List.mem_cons_self _ _))]
      have hstep : ingestLoop g ts (okd (d :: t) ++ rest) coll dp cc =
          ingestLoop g ts (okd t ++ rest)
            { points := coll.points ++ docPointsF f ts d, size := coll.size }
            (dp + 1) (cc + (docPointsF f ts d).length) := by
        simp only [okd, List.map_cons, List.cons_append, ingestLoop, hempf,
          Bool.false_eq_true, if_false]
        rw [hemb d (List.mem_cons_self _ _)]
        have hfold : docPoints ts d (List.map (fun p => f p.2.1) (chunk_document d)) =
            docPointsF f ts d := rfl
        simp only [hfold, hne, Bool.false_eq_true, if_false, hdel]
        rfl
      rw [hstep, ih rest { points := coll.points ++ docPointsF f ts d, size := coll.size }
        (dp + 1) (cc + (docPointsF f ts d).length) hndt (by
          intro pt hpt d' hd'
          rcases List.mem_append.1 hpt with hc | hdp
          · exact hdisj pt hc d' (List.mem_cons_of_mem _ hd')
          · rw [docPointsF_doc_id f ts d pt hdp]
            intro heq
            have he : d.doc_id = d'.doc_id := Option.some.inj heq
            apply hdid
            rw [he]
            exact List.mem_map_of_mem _ hd') hembt]
      simp only [List.flatMap_cons, List.length_cons, List.length_append, ← List.append_assoc]
      have e1 : dp + (t.length + 1) = dp + 1 + t.length := by omega
      have e2 : cc + ((docPointsF f ts d).length + (t.flatMap (docPointsF f ts)).length) =
          cc + (docPointsF f ts d).length + (t.flatMap (docPointsF f ts)).length := by omega
      rw [e1, e2]

lemma ingestLoop_rotate (f : String → List ℚ) (ts1 ts2 : String) (docs : List ParsedDocument) :
    ∀ (P : List PointStruct) (sz dp cc : Nat),
    ((docs.map (·.doc_id)).Nodup) →
    (∀ pt ∈ P, ∀ d ∈ docs, pt.payload.meta.doc_id ≠ some d.doc_id) →
    ingestLoop (tembed f) ts2 (okd docs)
      { points := docs.flatMap (docPointsF f ts1) ++ P, size := sz } dp cc =
      (.ok ⟨true, ⟨dp + docs.length, cc + (docs.flatMap (docPointsF f ts2)).length⟩⟩,
       ⟨P ++ docs.flatMap (docPointsF f ts2), sz⟩) := by
  induction docs with
  | nil =>
    intro P sz dp cc _ _
    simp [okd, ingestLoop]
  | cons d t ih =>
    intro P sz dp cc hnd hdisj
    have hndt : (t.map (·.doc_id)).Nodup := (List.nodup_cons.1 hnd).2
    have hdid : d.doc_id ∉ t.map (·.doc_id) := (List.nodup_cons.1 hnd).1
    by_cases hemp : (chunk_document d).isEmpty
    · have hempl := List.isEmpty_iff.1 hemp
      have hz1 : docPointsF f ts1 d = [] := docPointsF_empty f ts1 d hempl
      have hz2 : docPointsF f ts2 d = [] := docPointsF_empty f ts2 d hempl
      have hstep : ingestLoop (tembed f) ts2 (okd (d :: t))
          { points := (d :: t).flatMap (docPointsF f ts1) ++ P, size := sz } dp cc =
          ingestLoop (tembed f) ts2 (okd t)
            { points := t.flatMap (docPointsF f ts1) ++ P, size := sz } (dp + 1) cc := by
        simp only [okd, List.map_cons, ingestLoop, hemp, if_true, List.flatMap_cons, hz1,
          List.nil_append]
      rw [hstep, ih P sz (dp + 1) cc hndt
        (fun pt hpt d' hd' => hdisj pt hpt d' (List.mem_cons_of_mem _ hd'))]
      simp only [List.flatMap_cons, hz2, List.nil_append, List.length_cons]
      have e1 : dp + (t.length + 1) = dp + 1 + t.length := by omega
      rw [e1]
    · have hempf : (chunk_document d).isEmpty = false := by simpa using hemp
      have hne2 := docPointsF_isEmpty_false f ts2 d hempf
      have hdel : (((d :: t).flatMap (docPointsF f ts1) ++ P).filter
          (fun p => !(p.payload.meta.doc_id == some d.doc_id))) =
          t.flatMap (docPointsF f ts1) ++ P := by
        rw [List.flatMap_cons, List.append_assoc, List.filter_append,
          delete_all_match _ _ (docPointsF_doc_id f ts1 d), List.nil_append,
          List.filter_append,
          delete_no_match (t.flatMap (docPointsF f ts1)) d.doc_id (by
            intro pt hpt heq
            rcases flatMap_docPointsF_doc_id f ts1 t pt hpt with ⟨d', hd', hdd⟩
            rw [hdd] at heq
            have he : d'.doc_id = d.doc_id := Option.some.inj heq
            apply hdid
            rw [← he]
            exact List.mem_map_of_mem _ hd'),
          delete_no_match P d.doc_id (fun pt hpt =>
            hdisj pt hpt d (List.mem_cons_self _ _))]
      have hstep : ingestLoop (tembed f) ts2 (okd (d :: t))
          { points := (d :: t).flatMap (docPointsF f ts1) ++ P, size := sz } dp cc =
          ingestLoop (tembed f) ts2 (okd t)
            { points := (t.flatMap (docPointsF f ts1) ++ P) ++ docPointsF f ts2 d, size := sz }
            (dp + 1) (cc + (docPointsF f ts2 d).length) := by
        simp only [okd, List.map_cons, ingestLoop, hempf, Bool.false_eq_true, if_false]
        rw [tembed_batch f d]
        have hfold : docPoints ts2 d (List.map (fun p => f p.2.1) (chunk_document d)) =
            docPointsF f ts2 d := rfl
        simp only [hfold, hne2, Bool.false_eq_true, if_false, delete_document_chunks,
          upsertPoints, hdel]
      rw [hstep]
      have hassoc : (t.flatMap (docPointsF f ts1) ++ P) ++ docPointsF f ts2 d =
          t.flatMap (docPointsF f ts1) ++ (P ++ docPointsF f ts2 d) := by
        rw [List.append_assoc]
      rw [hassoc, ih (P ++ docPointsF f ts2 d) sz (dp + 1) (cc + (docPointsF f ts2 d).length)
        hndt (by
          intro pt hpt d' hd'
          rcases List.mem_append.1 hpt with hp | hp
          · exact hdisj pt hp d' (List.mem_cons_of_mem _ hd')
          · rw [docPointsF_doc_id f ts2 d pt hp]
            intro heq
            have he : d.doc_id = d'.doc_id := Option.some.inj heq
            apply hdid
            rw [he]
            exact List.mem_map_of_mem _ hd')]
      simp only [List.flatMap_cons, List.length_cons, List.length_append, List.append_assoc]
      have e1 : dp + (t.length + 1) = dp + 1 + t.length := by omega
      have e2 : cc + ((docPointsF f ts2 d).length + (t.flatMap (docPointsF f ts2)).length) =
          cc + (docPointsF f ts2 d).length + (t.flatMap (docPointsF f ts2)).length := by omega
      rw [e1, e2]

lemma chunk_ids_nodup (docs : List ParsedDocument) (hnd : (docs.map (·.doc_id)).Nodup) :
    (docs.flatMap (fun d => (chunk_document d).map
      (fun p => deterministic_chunk_id d.doc_id p.1))).Nodup := by
  induction docs with
  | nil => simp
  | cons d t ih =>
    have hndt : (t.map (·.doc_id)).Nodup := (List.nodup_cons.1 hnd).2
    have hdid : d.doc_id ∉ t.map (·.doc_id) := (List.nodup_cons.1 hnd).1
    rw [List.flatMap_cons, List.nodup_append]
    refine ⟨?_, ih hndt, ?_⟩
    · have h1 : (chunk_document d).map (fun p => deterministic_chunk_id d.doc_id p.1) =
          ((chunk_document d).map Prod.fst).map (fun i => deterministic_chunk_id d.doc_id i) := by
        rw [List.map_map]
        rfl
      rw [h1, chunk_document, List.enum_map_fst]
      apply List.Nodup.map
      · intro a b hab
        simpa [deterministic_chunk_id, ChunkIdT.mk.injEq] using hab
      · exact List.nodup_range _
    · intro x hx1 hx2
      rcases List.mem_map.1 hx1 with ⟨p, _, hpx⟩
      rcases List.mem_flatMap.1 hx2 with ⟨d', hd', hxd'⟩
      rcases List.mem_map.1 hxd' with ⟨p', _, heq⟩
      have he : d'.doc_id = d.doc_id := by
        have := congrArg ChunkIdT.doc_id (heq.trans hpx.symm)
        simpa [deterministic_chunk_id] using this
      apply hdid
      have hmem : d'.doc_id ∈ t.map (fun x => x.doc_id) := List.mem_map_of_mem _ hd'
      rw [he] at hmem
      exact hmem

lemma run_ingest_some (embed : String → Except Unit (List ℚ)) (dim : Nat) (ts : String)
    (docs : List (Except Unit ParsedDocument)) (index : Option Collection) :
    run_ingest embed dim ts (some docs) none index =
      ((ingestLoop embed ts docs (ensure_collection dim index) 0 0).1,
       some (ingestLoop embed ts docs (ensure_collection dim index) 0 0).2) := by
  rw [run_ingest]
  simp

/-- C5.  Idempotent re-ingestion: over an unchanged all-parsing corpus with
distinct document ids, two runs of `run_ingest` return the same successful
counts, the second run reproduces exactly the same chunk-id list in the
index, and the final index holds no duplicate chunk ids (each chunk id is the
deterministic function of the owning doc_id and the chunk ordinal; all chunks
of a doc_id are deleted before its new chunks are upserted). -/
theorem run_ingest_idempotent (f : String → List ℚ) (dim : Nat) (ts1 ts2 : String)
    (docs : List ParsedDocument) (hnd : (docs.map (·.doc_id)).Nodup) :
    (run_ingest (tembed f) dim ts1 (some (okd docs)) none none).1 =
      .ok ⟨true, ⟨docs.length, (docs.flatMap (docPointsF f ts1)).length⟩⟩ ∧
    (run_ingest (tembed f) dim ts2 (some (okd docs)) none
       (run_ingest (tembed f) dim ts1 (some (okd docs)) none none).2).1 =
      (run_ingest (tembed f) dim ts1 (some (okd docs)) none none).1 ∧
    (collPoints (run_ingest (tembed f) dim ts2 (some (okd docs)) none
       (run_ingest (tembed f) dim ts1 (some (okd docs)) none none).2).2).map (·.id) =
      (collPoints (run_ingest (tembed f) dim ts1 (some (okd docs)) none none).2).map (·.id) ∧
    ((collPoints (run_ingest (tembed f) dim ts2 (some (okd docs)) none
       (run_ingest (tembed f) dim ts1 (some (okd docs)) none none).2).2).map (·.id)).Nodup := by
  have hloop1 : ingestLoop (tembed f) ts1 (okd docs) (ensure_collection dim none) 0 0 =
      (.ok ⟨true, ⟨docs.length, (docs.flatMap (docPointsF f ts1)).length⟩⟩,
       ⟨docs.flatMap (docPointsF f ts1), dim⟩) := by
    have h := ingestLoop_ok_lead (tembed f) f ts1 docs [] (ensure_collection dim none) 0 0
      hnd (by intro pt hpt; simp [ensure_collection] at hpt) (fun d _ => tembed_batch f d)
    rw [List.append_nil] at h
    rw [h, ingestLoop_nil]
    simp [ensure_collection]
  have hr1 : run_ingest (tembed f) dim ts1 (some (okd docs)) none none =
      (.ok ⟨true, ⟨docs.length, (docs.flatMap (docPointsF f ts1)).length⟩⟩,
       some ⟨docs.flatMap (docPointsF f ts1), dim⟩) := by
    rw [run_ingest_some, hloop1]
  have hloop2 : ingestLoop (tembed f) ts2 (okd docs)
      (ensure_collection dim (some ⟨docs.flatMap (docPointsF f ts1), dim⟩)) 0 0 =
      (.ok ⟨true, ⟨docs.length, (docs.flatMap (docPointsF f ts2)).length⟩⟩,
       ⟨docs.flatMap (docPointsF f ts2), dim⟩) := by
    have hens : ensure_collection dim (some ⟨docs.flatMap (docPointsF f ts1), dim⟩) =
        ⟨docs.flatMap (docPointsF f ts1), dim⟩ := by
      simp [ensure_collection]
    rw [hens]
    have h := ingestLoop_rotate f ts1 ts2 docs [] dim 0 0 hnd (by intro pt hpt; cases hpt)
    rw [List.append_nil] at h
    simpa using h
  have hr2 : run_ingest (tembed f) dim ts2 (some (okd docs)) none
      (some ⟨docs.flatMap (docPointsF f ts1), dim⟩) =
      (.ok ⟨true, ⟨docs.length, (docs.flatMap (docPointsF f ts2)).length⟩⟩,
       some ⟨docs.flatMap (docPointsF f ts2), dim⟩) := by
    rw [run_ingest_some, hloop2]
  simp only [hr1, hr2, collPoints, true_and]
  refine ⟨?_, ?_, ?_⟩
  · rw [flatMap_docPointsF_length f ts2 ts1 docs]
  · rw [flatMap_docPointsF_ids f ts2 docs, flatMap_docPointsF_ids f ts1 docs]
  · rw [flatMap_docPointsF_ids f ts2 docs]
    exact chunk_ids_nodup docs hnd

/-- C8 (amended).  Failure aborts the whole run: when embedding fails for one
document (or a parser raises), `run_ingest` propagates the error instead of
continuing; documents processed before the failure keep their writes, and no
write at all occurs for the failing document (its delete and upsert happen
only after its embeddings succeed). -/
theorem run_ingest_failure_aborts (g : String → Except Unit (List ℚ)) (f : String → List ℚ)
    (dim : Nat) (ts : String) (pre : List ParsedDocument) (bad : ParsedDocument)
    (post : List (Except Unit ParsedDocument))
    (hnd : (pre.map (·.doc_id)).Nodup)
    (hbadid : bad.doc_id ∉ pre.map (·.doc_id))
    (hpre : ∀ d ∈ pre, ((chunk_document d).map (fun p => p.2.1)).mapM g =
      .ok ((chunk_document d).map (fun p => f p.2.1)))
    (hbadch : (chunk_document bad).isEmpty = false)
    (hbad : ((chunk_document bad).map (fun p => p.2.1)).mapM g = .error ()) :
    run_ingest g dim ts (some (okd pre ++ .ok bad :: post)) none none =
      (.error .embedFailure, some ⟨pre.flatMap (docPointsF f ts), dim⟩) ∧
    (∀ pt ∈ pre.flatMap (docPointsF f ts), pt.payload.meta.doc_id ≠ some bad.doc_id) ∧
    run_ingest g dim ts (some (okd pre ++ .error () :: post)) none none =
      (.error .parseFailure, some ⟨pre.flatMap (docPointsF f ts), dim⟩) := by
  have hdisj0 : ∀ pt ∈ (ensure_collection dim none).points, ∀ d ∈ pre,
      pt.payload.meta.doc_id ≠ some d.doc_id := by
    intro pt hpt
    simp [ensure_collection] at hpt
  refine ⟨?_, ?_, ?_⟩
  · rw [run_ingest_some]
    rw [ingestLoop_ok_lead g f ts pre (.ok bad :: post) (ensure_collection dim none) 0 0
      hnd hdisj0 hpre]
    have hbadstep : ∀ (S : Collection) (dp cc : Nat),
        ingestLoop g ts (.ok bad :: post) S dp cc = (.error .embedFailure, S) := by
      intro S dp cc
      simp only [ingestLoop, hbadch, Bool.false_eq_true, if_false]
      rw [hbad]
    rw [hbadstep]
    simp [ensure_collection]
  · intro pt hpt heq
    rcases flatMap_docPointsF_doc_id f ts pre pt hpt with ⟨d, hd, hdd⟩
    rw [hdd] at heq
    have he : d.doc_id = bad.doc_id := Option.some.inj heq
    apply hbadid
    have hmem : d.doc_id ∈ pre.map (·.doc_id) := List.mem_map_of_mem _ hd
    rw [he] at hmem
    exact hmem
  · rw [run_ingest_some]
    rw [ingestLoop_ok_lead g f ts pre (.error () :: post) (ensure_collection dim none) 0 0
      hnd hdisj0 hpre]
    have hparse : ∀ (S : Collection) (dp cc : Nat),
        ingestLoop g ts (.error () :: post) S dp cc = (.error .parseFailure, S) :=
      fun _ _ _ => rfl
    rw [hparse]
    simp [ensure_collection]

/-- C10 (amended).  When no configured corpus root exists, `run_ingest`
returns `ok = True` with zero counts and leaves the index untouched -- it
raises nothing. -/
theorem run_ingest_no_roots (embed : String → Except Unit (List ℚ)) (dim : Nat) (ts : String)
    (index : Option Collection) :
    run_ingest embed dim ts none none index =
      (.ok ⟨true, ⟨0, 0⟩⟩, index) := rfl

/-- Counterexample to C10 as stated: at a concrete configuration with no
corpus roots, `run_ingest` returns a success result with zero counts rather
than raising a typed failure. -/
theorem run_ingest_no_roots_counterexample :
    run_ingest (fun _ => .error ()) 1 "ts" none none none =
      (.ok ⟨true, ⟨0, 0⟩⟩, none) ∧
    (run_ingest (fun _ => .error ()) 1 "ts" none none none).1 ≠ .error .parseFailure ∧
    (run_ingest (fun _ => .error ()) 1 "ts" none none none).1 ≠ .error .embedFailure := by
  refine ⟨rfl, ?_, ?_⟩ <;> simp [run_ingest]

lemma chunkTextAux_short (words : List String) (h0 : 0 < words.length)
    (h : words.length ≤ MAX_TOKENS) :
    chunkTextAux words 0 = [String.intercalate " " words] := by
  rw [chunkTextAux, dif_pos h0, if_pos (by omega)]
  have hm : min (0 + MAX_TOKENS) words.length - 0 = words.length := by omega
  rw [hm, List.drop_zero, List.take_length]

lemma chunk_text_hello : chunk_text "hello world" = ["hello world"] := by
  rw [chunk_text, show pySplit "hello world" = ["hello", "world"] from by decide,
    chunkTextAux_short ["hello", "world"] (by decide) (by decide)]
  decide

lemma chunk_text_bye : chunk_text "bye" = ["bye"] := by
  rw [chunk_text, show pySplit "bye" = ["bye"] from by decide,
    chunkTextAux_short ["bye"] (by decide) (by decide)]
  decide

lemma chunk_document_ingDocA : chunk_document ingDocA = [(0, "hello world", "A")] := by
  simp [chunk_document, ingDocA, chunk_text_hello]

lemma chunk_document_ingDocB : chunk_document ingDocB = [(0, "bye", "B")] := by
  simp [chunk_document, ingDocB, chunk_text_bye]

/-- Witness for C5 at a concrete two-document corpus: both runs succeed with
two documents and two chunks, counts agree, and the final chunk ids have no
duplicates. -/
theorem run_ingest_idempotent_witness :
    (run_ingest (tembed fun _ => [1]) 1 "t1" (some (okd [ingDocA, ingDocB])) none none).1 =
      .ok ⟨true, ⟨2, ([ingDocA, ingDocB].flatMap (docPointsF (fun _ => [1]) "t1")).length⟩⟩ ∧
    (run_ingest (tembed fun _ => [1]) 1 "t2" (some (okd [ingDocA, ingDocB])) none
       (run_ingest (tembed fun _ => [1]) 1 "t1" (some (okd [ingDocA, ingDocB])) none none).2).1 =
      (run_ingest (tembed fun _ => [1]) 1 "t1" (some (okd [ingDocA, ingDocB])) none none).1 ∧
    ((collPoints (run_ingest (tembed fun _ => [1]) 1 "t2" (some (okd [ingDocA, ingDocB])) none
       (run_ingest (tembed fun _ => [1]) 1 "t1" (some (okd [ingDocA, ingDocB])) none none).2).2).map
      (·.id)).Nodup ∧
    ([ingDocA, ingDocB].flatMap (docPointsF (fun _ => [1]) "t1")).length = 2 := by
  have h := run_ingest_idempotent (fun _ => [1]) 1 "t1" "t2" [ingDocA, ingDocB] (by decide)
  refine ⟨h.1, h.2.1, h.2.2.2, ?_⟩
  simp [docPointsF_length, chunk_document_ingDocA, chunk_document_ingDocB]

/-- Witness for the amended C8 at a concrete corpus: the first document
embeds, the second document's embedding fails, the run returns the embedding
error, and the index holds no point of the failing document. -/
theorem run_ingest_failure_aborts_witness :
    run_ingest (fun t => if t == "bye" then .error () else .ok [1]) 1 "ts"
      (some (okd [ingDocA] ++ .ok ingDocB :: [])) none none =
      (.error .embedFailure, some ⟨[ingDocA].flatMap (docPointsF (fun _ => [1]) "ts"), 1⟩) ∧
    (∀ pt ∈ [ingDocA].flatMap (docPointsF (fun _ => [1]) "ts"),
      pt.payload.meta.doc_id ≠ some ingDocB.doc_id) := by
  have h := run_ingest_failure_aborts (fun t => if t == "bye" then .error () else .ok [1])
    (fun _ => [1]) 1 "ts" [ingDocA] ingDocB [] (by decide) (by decide)
    (by
      intro d hd
      have hd' : d = ingDocA := List.mem_singleton.1 hd
      subst hd'
      rw [chunk_document_ingDocA]
      rfl)
    (by rw [chunk_document_ingDocB]; rfl)
    (by rw [chunk_document_ingDocB]; rfl)
  exact ⟨h.1, h.2.1⟩

/-- Counterexample to C8 as stated: with an embedder that always fails, the
run over a two-document corpus neither continues past the first document nor
returns partial counts -- it returns the embedding error and writes nothing. -/
theorem run_ingest_failure_counterexample :
    run_ingest (fun _ => .error ()) 1 "ts" (some [.ok ingDocA, .ok ingDocB]) none none =
      (.error .embedFailure, some ⟨[], 1⟩) := by
  rw [run_ingest_some]
  have hstep : ingestLoop (fun _ => .error ()) "ts" [.ok ingDocA, .ok ingDocB]
      (ensure_collection 1 none) 0 0 =
      (.error .embedFailure, ensure_collection 1 none) := by
    simp only [ingestLoop, chunk_document_ingDocA]
    rfl
  rw [hstep]
  rfl

/-! ## Retrieval lemmas (C1, C2, C7) -/

lemma mem_searchIndex (sim : List ℚ → List ℚ → ℚ) (points : List PointStruct)
    (qv : List ℚ) (limit : Nat) (cid : String) :
    ∀ hit ∈ searchIndex sim points qv limit (some cid),
    hit.payload.meta.course_id = some cid := by
  intro hit hhit
  unfold searchIndex at hhit
  have h1 := List.mem_of_mem_take hhit
  rw [List.mem_insertionSort] at h1
  rcases List.mem_map.1 h1 with ⟨p, hp, rfl⟩
  have h2 := (List.mem_filter.1 hp).2
  simpa using h2

lemma fallback_truthy (fs : List (String × String)) (freshId query : String)
    (cid : Option String) (h : optTruthy cid = true) :
    _fallback_local_chunks fs freshId query cid = [] := by
  rw [_fallback_local_chunks, if_pos h]

lemma mem_searchChunks (env : RetrieveEnv) (index : Option Collection) (query : String)
    (topK : Nat) (A : String) (hA : A ≠ "") :
    ∀ c ∈ searchChunks env index query topK (some A), c.meta.course_id = some A := by
  intro c hc
  rw [searchChunks] at hc
  have htr : optTruthy (some A) = true := by simp [optTruthy, hA]
  rw [htr] at hc
  simp only [if_true] at hc
  rcases List.mem_map.1 hc with ⟨hit, hhit, rfl⟩
  have hhit' := (keyword_bias_perm _ query).subset hhit
  exact mem_searchIndex env.sim _ _ _ A hit hhit'

lemma mem_chunksWithLate (env : RetrieveEnv) (index : Option Collection) (query : String)
    (topK : Nat) (A : String) (hA : A ≠ "") :
    ∀ c ∈ chunksWithLate env index query topK (some A), c.meta.course_id = some A := by
  intro c hc
  rw [chunksWithLate] at hc
  by_cases hcond : (strHas "late" (pyLower query) &&
      !((searchChunks env index query topK (some A)).any hasLatePath)) = true
  · rw [if_pos hcond] at hc
    rcases List.mem_append.1 hc with h | h
    · exact mem_searchChunks env index query topK A hA c h
    · rw [List.mem_singleton.1 h]
      rfl
  · rw [if_neg hcond] at hc
    exact mem_searchChunks env index query topK A hA c hc

/-- C1.  Tenant isolation of retrieval: with both tenants present in the
index, a query scoped to tenant `A` (a tenant id is nonempty) never returns a
chunk whose `course_id` metadata is the other tenant `B`. -/
theorem retrieve_tenant_isolation (env : RetrieveEnv) (index : Option Collection)
    (query : String) (topK : Nat) (A B : String) (hA : A ≠ "") (hAB : A ≠ B)
    (hApresent : ∃ p ∈ (ensure_collection env.dim index).points,
      p.payload.meta.course_id = some A)
    (hBpresent : ∃ p ∈ (ensure_collection env.dim index).points,
      p.payload.meta.course_id = some B) :
    ∀ c ∈ retrieve env index query topK (some A), c.meta.course_id ≠ some B := by
  have htr : optTruthy (some A) = true := by simp [optTruthy, hA]
  have hall : ∀ c ∈ retrieve env index query topK (some A), c.meta.course_id = some A := by
    intro c hc
    simp only [retrieve] at hc
    by_cases h1 : (!(chunksWithLate env index query topK (some A)).isEmpty &&
        (chunksWithLate env index query topK (some A)).any hasLatePath) = true
    · rw [if_pos h1] at hc
      exact mem_chunksWithLate env index query topK A hA c hc
    · rw [if_neg h1] at hc
      rw [fallback_truthy env.fs env.freshId query (some A) htr] at hc
      simp only [List.isEmpty_nil, Bool.not_true, Bool.false_eq_true, if_false] at hc
      by_cases h2 : (optTruthy (some A) &&
          (pyLower ((some A : Option String).getD "") == "anth204")) = true
      · rw [if_pos h2] at hc
        cases hl : fsLookup env.fs anthPath with
        | some content =>
          rw [hl] at hc
          rw [List.mem_singleton.1 hc]
        | none =>
          rw [hl] at hc
          by_cases h3 : strHas "late" (pyLower query) = true
          · rw [if_pos h3] at hc
            rw [List.mem_singleton.1 hc]
            rfl
          · rw [if_neg h3] at hc
            exact mem_chunksWithLate env index query topK A hA c hc
      · rw [if_neg h2] at hc
        by_cases h3 : strHas "late" (pyLower query) = true
        · rw [if_pos h3] at hc
          rw [List.mem_singleton.1 hc]
          rfl
        · rw [if_neg h3] at hc
          exact mem_chunksWithLate env index query topK A hA c hc
  intro c hc heq
  rw [hall c hc] at heq
  exact hAB (Option.some.inj heq)

/-- Witness for C1 at a two-tenant index: the c1-scoped query returns exactly
the c1 chunk, and the theorem rejects c2 ownership for it. -/
theorem retrieve_tenant_isolation_witness :
    ("c1" : String) ≠ "" ∧ ("c1" : String) ≠ "c2" ∧
    retrieve isoEnv isoColl "policy" 6 (some "c1") = [isoChunk1] ∧
    isoChunk1.meta.course_id ≠ some "c2" := by
  refine ⟨by decide, by decide, by rfl, ?_⟩
  exact retrieve_tenant_isolation isoEnv isoColl "policy" 6 "c1" "c2" (by decide) (by decide)
    ⟨isoPoint1, List.mem_cons_self _ _, rfl⟩
    ⟨isoPoint2, List.mem_cons_of_mem _ (List.mem_cons_self _ _), rfl⟩
    isoChunk1 (by rw [show retrieve isoEnv isoColl "policy" 6 (some "c1") = [isoChunk1] from rfl]; exact List.mem_singleton.2 rfl)

lemma hasLatePath_lateChunk (freshId : String) (cid : Option String) (s : ℚ) :
    hasLatePath (lateChunk freshId cid s) = true := rfl

/-- C7.  The fabricated late-policy chunk: when the query mentions "late" and
no search result has "late" in its source path, `retrieve` returns the
re-ranked search results with one appended fabricated chunk -- fixed text,
source path `data/late-policy.md`, hard-coded score 0.4 (one of the two
hard-coded constants 0.4/0.5), content that was never ingested.  When the
search returns nothing this fabricated chunk is the sole result. -/
theorem retrieve_late_fabrication (env : RetrieveEnv) (index : Option Collection)
    (query : String) (topK : Nat) (course_id : Option String)
    (hlate : strHas "late" (pyLower query) = true)
    (hnone : (searchChunks env index query topK course_id).any hasLatePath = false) :
    retrieve env index query topK course_id =
      searchChunks env index query topK course_id ++ [lateChunk env.freshId course_id 0.4] ∧
    (lateChunk env.freshId course_id 0.4).meta.source_path = some "data/late-policy.md" ∧
    (lateChunk env.freshId course_id 0.4).text = "Late submission policy placeholder." ∧
    ((lateChunk env.freshId course_id 0.4).score = 0.4 ∨
      (lateChunk env.freshId course_id 0.4).score = 0.5) := by
  have hcwl : chunksWithLate env index query topK course_id =
      searchChunks env index query topK course_id ++ [lateChunk env.freshId course_id 0.4] := by
    rw [chunksWithLate, if_pos (by rw [hlate, hnone]; rfl)]
  refine ⟨?_, rfl, rfl, Or.inl rfl⟩
  simp only [retrieve, hcwl]
  rw [if_pos ?hc]
  case hc =>
    have hne : ((searchChunks env index query topK course_id ++
        [lateChunk env.freshId course_id 0.4]).isEmpty) = false := by
      cases searchChunks env index query topK course_id <;> rfl
    have hany : ((searchChunks env index query topK course_id ++
        [lateChunk env.freshId course_id 0.4]).any hasLatePath) = true := by
      rw [List.any_append, hnone]
      simp [hasLatePath_lateChunk]
    rw [hne, hany]
    rfl

/-- Witness for C7 over an empty index: a query mentioning "late" returns the
fabricated chunk as the sole result. -/
theorem retrieve_late_fabrication_witness :
    strHas "late" (pyLower "when is late work due") = true ∧
    retrieve lateEnv none "when is late work due" 6 none =
      searchChunks lateEnv none "when is late work due" 6 none ++ [lateChunk "fid" none 0.4] ∧
    retrieve lateEnv none "when is late work due" 6 none = [lateChunk "fid" none 0.4] :=
  ⟨by decide,
   (retrieve_late_fabrication lateEnv none "when is late work due" 6 none (by decide) (by rfl)).1,
   by rfl⟩

lemma fallbackLoop_zero (fs : List (String × String)) :
    ∀ best : String × String, fallbackLoop [] fs (some best) 0 = some best := by
  induction fs with
  | nil => intro best; rfl
  | cons e rest ih =>
    intro best
    rcases e with ⟨p, c⟩
    show fallbackLoop [] ((p, c) :: rest) (some best) 0 = some best
    have hscore : fallbackScore [] p c = 0 := rfl
    simp only [fallbackLoop, hscore]
    norm_num
    exact ih best

/-- C2 (amended).  Fallback-path contract as the code implements it:
`retrieve` returns the re-ranked search results (with the possible fabricated
late-policy chunk) only when one of them carries "late" in its source path;
otherwise -- even when the vector search returned results -- it answers from
the filesystem fallback whenever that is nonempty.  The fallback returns no
chunk for a truthy `course_id` (the unresolved `resources` name raises and is
swallowed), and with a falsy `course_id` and a query without literal
backslash-w sequences its keyword set is empty (the escaped regex matches no
ordinary words), so it returns the first file of the directory listing --
not a keyword-scored best file. -/
theorem retrieve_fallback_contract (env : RetrieveEnv) (index : Option Collection)
    (query : String) (topK : Nat) (course_id : Option String) :
    ((chunksWithLate env index query topK course_id).any hasLatePath = true →
      retrieve env index query topK course_id =
        chunksWithLate env index query topK course_id) ∧
    ((chunksWithLate env index query topK course_id).any hasLatePath = false →
      _fallback_local_chunks env.fs env.freshId query course_id ≠ [] →
      retrieve env index query topK course_id =
        _fallback_local_chunks env.fs env.freshId query course_id) ∧
    (optTruthy course_id = true →
      _fallback_local_chunks env.fs env.freshId query course_id = []) ∧
    (optTruthy course_id = false → fallbackKeywords query = [] →
      ∀ p c rest, env.fs = (p, c) :: rest →
      _fallback_local_chunks env.fs env.freshId query course_id =
        [mkFallbackChunk env.freshId p c course_id]) := by
  refine ⟨?_, ?_, fun h => fallback_truthy env.fs env.freshId query course_id h, ?_⟩
  · intro hany
    have hne : (chunksWithLate env index query topK course_id).isEmpty = false := by
      cases hl : chunksWithLate env index query topK course_id with
      | nil => rw [hl] at hany; cases hany
      | cons x xs => rfl
    simp only [retrieve]
    rw [if_pos (by rw [hne, hany]; rfl)]
  · intro hany hfb
    have hcond : (!(chunksWithLate env index query topK course_id).isEmpty &&
        (chunksWithLate env index query topK course_id).any hasLatePath) = false := by
      rw [hany]
      simp
    simp only [retrieve]
    rw [if_neg (by rw [hcond]; simp)]
    have hfb' : (_fallback_local_chunks env.fs env.freshId query course_id).isEmpty = false := by
      cases hl : _fallback_local_chunks env.fs env.freshId query course_id with
      | nil => exact absurd hl hfb
      | cons x xs => rfl
    rw [if_pos (by rw [hfb']; rfl)]
  · intro htr hkw p c rest hfs
    rw [_fallback_local_chunks, if_neg (by rw [htr]; simp), hkw, hfs]
    have hstep : fallbackLoop [] ((p, c) :: rest) none (-1) =
        fallbackLoop [] rest (some (p, c)) 0 := by
      have hscore : fallbackScore [] p c = 0 := rfl
      simp only [fallbackLoop, hscore]
      norm_num
    rw [hstep, fallbackLoop_zero rest (p, c)]

/-- Counterexample to C2 as stated: a concrete run in which the vector search
returns a result, yet `retrieve` ignores it and answers from the filesystem
fallback; moreover the fallback keyword set of the ordinary query "syllabus"
is empty (the escaped regex r"\\w+" matches no ordinary words), so the
returned file is merely the first of the directory listing. -/
theorem retrieve_fallback_counterexample :
    searchChunks fbEnv fbColl "syllabus" 6 none ≠ [] ∧
    fallbackKeywords "syllabus" = [] ∧
    retrieve fbEnv fbColl "syllabus" 6 none ≠ searchChunks fbEnv fbColl "syllabus" 6 none ∧
    retrieve fbEnv fbColl "syllabus" 6 none =
      [mkFallbackChunk "fid" "notes.md" "hello world" none] := by
  refine ⟨by decide, by decide, by decide, by rfl⟩

/-- Witness for the amended C2 at the counterexample input: the search
results carry no "late" path, the fallback is nonempty, and `retrieve`
returns exactly the fallback's first-file chunk. -/
theorem retrieve_fallback_contract_witness :
    (chunksWithLate fbEnv fbColl "syllabus" 6 none).any hasLatePath = false ∧
    retrieve fbEnv fbColl "syllabus" 6 none =
      _fallback_local_chunks fbEnv.fs fbEnv.freshId "syllabus" none ∧
    _fallback_local_chunks fbEnv.fs fbEnv.freshId "syllabus" none =
      [mkFallbackChunk fbEnv.freshId "notes.md" "hello world" none] := by
  have h := retrieve_fallback_contract fbEnv fbColl "syllabus" 6 none
  exact ⟨by rfl, h.2.1 (by rfl) (by decide),
    h.2.2.2 (by rfl) (by decide) "notes.md" "hello world" [] (by rfl)⟩

end Lena
